import Mathlib

/-!
Verification development for the rustdocs aggregation pipeline
(`src/tools/query_rustdocs.rs`).

Shallow embedding: the pure Rust helpers become Lean functions over `String`
(with the character-level work done on `String.data : List Char`); the external
collaborators — HTTP (reqwest, including per-request timeouts), HTML parsing
(scraper) and JSON decoding (serde_json) — are modeled as explicit environment
functions and outcome data passed to the embedded pipeline.  All definitions
are executable so that concrete inputs can be evaluated in proofs.
-/

namespace QueryRustdocs

/-! ### Character-list utilities

Rust `str` operations used by the tool, implemented on `List Char` so every
definition reduces in the kernel.  Each definition's doc comment names the
Rust operation it embeds.
-/

/-- Rust `str::find(pat)` + slicing: splits `s` at the first occurrence of
`pat`, returning the text before it and the text after it; `none` when `pat`
does not occur in `s`. -/
def splitFirst? (pat : List Char) : List Char → Option (List Char × List Char)
  | [] => if pat = [] then some ([], []) else none
  | c :: rest =>
    if pat.isPrefixOf (c :: rest) then some ([], (c :: rest).drop pat.length)
    else
      match splitFirst? pat rest with
      | some (b, a) => some (c :: b, a)
      | none => none

/-- Rust `str::contains(pat)` (substring containment). -/
def strContains (s pat : String) : Bool :=
  (splitFirst? pat.data s.data).isSome

/-- The text after the first occurrence of `pat` in `s` (Rust
`&s[idx + pat.len()..]` after a successful `find`). -/
def strAfterFirst? (s pat : String) : Option String :=
  (splitFirst? pat.data s.data).map (fun p => ⟨p.2⟩)

/-- The text before the first occurrence of `pat` in `s`, or `s` itself when
`pat` does not occur (Rust `truncate` at `find`). -/
def strBeforeFirst (s pat : String) : String :=
  match splitFirst? pat.data s.data with
  | some (b, _) => ⟨b⟩
  | none => s

/-- Rust `str::split(sep)` for a single-character separator: keeps empty
groups, exactly like Rust. -/
def splitOnChar (sep : Char) : List Char → List (List Char)
  | [] => [[]]
  | c :: rest =>
    let r := splitOnChar sep rest
    if c = sep then [] :: r
    else
      match r with
      | [] => [[c]]
      | g :: gs => (c :: g) :: gs

/-- `splitOnChar` lifted to `String`. -/
def strSplitChar (s : String) (sep : Char) : List String :=
  (splitOnChar sep s.data).map (fun g => ⟨g⟩)

/-- Rust `str::starts_with`. -/
def strStartsWith (s pat : String) : Bool :=
  pat.data.isPrefixOf s.data

/-- Rust `str::ends_with`. -/
def strEndsWith (s pat : String) : Bool :=
  pat.data.isSuffixOf s.data

/-- Rust `str::trim`: remove leading and trailing whitespace. -/
def strTrim (s : String) : String :=
  ⟨((s.data.dropWhile Char.isWhitespace).reverse.dropWhile Char.isWhitespace).reverse⟩

/-- Rust `str::trim_start_matches('/')`: drop every leading `'/'`. -/
def strDropLeadingSlashes (s : String) : String :=
  ⟨s.data.dropWhile (fun c => c = '/')⟩

/-- One step of Rust `str::trim_end_matches(pat)`: repeatedly strip a trailing
occurrence of `pat`.  The first argument is recursion fuel; each strip removes
at least one character (for non-empty `pat`), so fuel `s.length + 1` makes the
function agree with the unbounded Rust loop. -/
def stripSuffixFuel (pat : List Char) : Nat → List Char → List Char
  | 0, s => s
  | fuel + 1, s =>
    if pat ≠ [] ∧ pat.isSuffixOf s then
      stripSuffixFuel pat fuel (s.take (s.length - pat.length))
    else s

/-- Rust `str::trim_end_matches(pat)` (string pattern: repeatedly removes the
suffix; with a one-character pattern this is also `trim_end_matches(char)`). -/
def strTrimEndMatches (s pat : String) : String :=
  ⟨stripSuffixFuel pat.data (s.data.length + 1) s.data⟩

/-- `str::split` for a character-class predicate: keeps empty groups. -/
def splitPred (p : Char → Bool) : List Char → List (List Char)
  | [] => [[]]
  | c :: rest =>
    let r := splitPred p rest
    if p c then [] :: r
    else
      match r with
      | [] => [[c]]
      | g :: gs => (c :: g) :: gs

/-- Rust `str::split_whitespace`: whitespace-separated tokens, empties
skipped. -/
def wsTokens (s : String) : List String :=
  (splitPred Char.isWhitespace s.data).filterMap
    (fun g => if g = [] then none else some ⟨g⟩)

/-- Rust `str::lines`: split on `'\n'`, strip a trailing `'\r'` from each line,
and do not produce a final empty line for a trailing newline. -/
def rustLines (s : String) : List String :=
  if s.data = [] then []
  else
    let groups := splitOnChar '\n' s.data
    let groups := if s.data.getLast? = some '\n' then groups.dropLast else groups
    groups.map (fun g => ⟨if g.getLast? = some '\r' then g.dropLast else g⟩)

/-- Rust `Vec::join(sep)` on strings. -/
def strJoinWith (sep : String) (xs : List String) : String :=
  ⟨List.intercalate sep.data (xs.map String.data)⟩

/-! ### Version selection (`parse_version_numeric_and_prerelease`,
`version_is_greater`) -/

/-- Rust `str::len`: the UTF-8 byte length of the text. -/
def utf8Len (s : String) : Nat :=
  s.data.foldl (fun n c => n + c.utf8Size) 0

/-- Two's-complement wrap of an integer into the `i64` range: the behavior of
overflowing `i64` arithmetic in Rust release builds (a debug build would
panic on the overflowing operation instead). -/
def wrapI64 (n : Int) : Int :=
  (n + 2 ^ 63) % 2 ^ 64 - 2 ^ 63

/-- The true (unbounded) decimal value of a digit run — the reading the spec
assumes when it speaks of "numeric segments". -/
def decimalVal (ds : List Char) : Nat :=
  ds.foldl (fun n c => n * 10 + (c.toNat - '0'.toNat)) 0

/-- Numeric value of a digit run as the Rust
`num = num * 10 + (ch as i64 - '0' as i64)` fold computes it: unguarded `i64`
arithmetic, so each step wraps on overflow (from the 19th digit on the value
can differ from `decimalVal`). -/
def digitsVal (ds : List Char) : Int :=
  ds.foldl (fun n c => wrapI64 (n * 10 + ((c.toNat : Int) - ('0'.toNat : Int)))) 0

/-- Embeds `parse_version_numeric_and_prerelease`: trim, detect a prerelease
tag after the first `'-'` (flagged only when the tag is non-empty), then for
each `'.'`-separated segment of the main part take its leading digit run; a
segment with no leading digit contributes `0` and flags prerelease. -/
def parse_version_numeric_and_prerelease (v : String) : List Int × Bool :=
  let v := strTrim v
  let (main, pre0) :=
    match splitFirst? ['-'] v.data with
    | some (m, after) => ((⟨m⟩ : String), !after.isEmpty)
    | none => (v, false)
  (strSplitChar main '.').foldl
    (fun acc seg =>
      let ds := seg.data.takeWhile Char.isDigit
      if ds = [] then (acc.1 ++ [0], true)
      else (acc.1 ++ [digitsVal ds], acc.2))
    ([], pre0)

/-- The comparison loop once the left segment list is exhausted: each missing
left position reads as `0` against the remaining right entries, so the first
nonzero right entry decides. -/
def cmpZeroTail : List Int → Ordering
  | [] => Ordering.eq
  | b :: bs =>
    if 0 < b then Ordering.lt
    else if b < 0 then Ordering.gt
    else cmpZeroTail bs

/-- The comparison loop once the right segment list is exhausted: the first
nonzero left entry decides against the zero padding. -/
def cmpTailZero : List Int → Ordering
  | [] => Ordering.eq
  | a :: as =>
    if 0 < a then Ordering.gt
    else if a < 0 then Ordering.lt
    else cmpTailZero as

/-- Embeds the index loop of `version_is_greater`: compare the two segment
lists position by position, the missing positions of the shorter list reading
as `0`; the first strict difference decides.  Translated into structural
recursion, with the one-sided tails handled by `cmpZeroTail` /
`cmpTailZero`. -/
def compareSegs : List Int → List Int → Ordering
  | [], bs => cmpZeroTail bs
  | a :: as, [] => cmpTailZero (a :: as)
  | a :: as, b :: bs =>
    if b < a then Ordering.gt
    else if a < b then Ordering.lt
    else compareSegs as bs

/-- Embeds `version_is_greater`: `true` iff `a > b` under the numeric-segment
comparison, with equal numeric segments broken by preferring the
non-prerelease side (`!pra && prb`). -/
def version_is_greater (a b : String) : Bool :=
  let pa := (parse_version_numeric_and_prerelease a).1
  let pra := (parse_version_numeric_and_prerelease a).2
  let pb := (parse_version_numeric_and_prerelease b).1
  let prb := (parse_version_numeric_and_prerelease b).2
  match compareSegs pa pb with
  | Ordering.gt => true
  | Ordering.lt => false
  | Ordering.eq => !pra && prb

/-! ### Characterization of the segment comparison -/

/-- Shifting a universally-quantified zero-padded pointwise equality across a
`cons` on both sides. -/
lemma forall_getD_cons (a b : Int) (as bs : List Int) :
    (∀ i, (a :: as).getD i 0 = (b :: bs).getD i 0) ↔
      a = b ∧ ∀ i, as.getD i 0 = bs.getD i 0 := by
  constructor
  · intro h
    exact ⟨by simpa using h 0, fun i => by simpa using h (i + 1)⟩
  · rintro ⟨rfl, h⟩ i
    cases i with
    | zero => rfl
    | succ i => simpa using h i

/-- `cmpZeroTail` answers `eq` exactly when every padded read of the right
tail is zero. -/
lemma cmpZeroTail_eq_iff : ∀ bs : List Int,
    cmpZeroTail bs = Ordering.eq ↔ ∀ i, bs.getD i 0 = 0 := by
  intro bs
  induction bs with
  | nil => simp [cmpZeroTail, List.getD_nil]
  | cons b bs ih =>
    simp only [cmpZeroTail]
    by_cases h1 : 0 < b
    · rw [if_pos h1]
      constructor
      · intro h
        exact absurd h (by decide)
      · intro hall
        have h0 := hall 0
        simp only [List.getD_cons_zero] at h0
        omega
    · rw [if_neg h1]
      by_cases h2 : b < 0
      · rw [if_pos h2]
        constructor
        · intro h
          exact absurd h (by decide)
        · intro hall
          have h0 := hall 0
          simp only [List.getD_cons_zero] at h0
          omega
      · rw [if_neg h2]
        have hb : b = 0 := by omega
        subst hb
        rw [ih]
        constructor
        · intro h i
          cases i with
          | zero => simp
          | succ i => simpa using h i
        · intro h i
          simpa using h (i + 1)

/-- `cmpZeroTail` answers `gt` exactly when the first nonzero padded read of
the right tail is negative. -/
lemma cmpZeroTail_gt_iff : ∀ bs : List Int,
    cmpZeroTail bs = Ordering.gt ↔
      ∃ i, (∀ j, j < i → bs.getD j 0 = 0) ∧ bs.getD i 0 < 0 := by
  intro bs
  induction bs with
  | nil =>
    simp only [cmpZeroTail]
    constructor
    · intro h
      exact absurd h (by decide)
    · rintro ⟨i, -, hi⟩
      simp only [List.getD_nil] at hi
      omega
  | cons b bs ih =>
    simp only [cmpZeroTail]
    by_cases h1 : 0 < b
    · rw [if_pos h1]
      constructor
      · intro h
        exact absurd h (by decide)
      · rintro ⟨i, hj, hi⟩
        cases i with
        | zero =>
          simp only [List.getD_cons_zero] at hi
          omega
        | succ i =>
          have h0 := hj 0 (by omega)
          simp only [List.getD_cons_zero] at h0
          omega
    · rw [if_neg h1]
      by_cases h2 : b < 0
      · rw [if_pos h2]
        constructor
        · intro _
          exact ⟨0, fun j hj => absurd hj (Nat.not_lt_zero j), by simpa using h2⟩
        · intro _
          rfl
      · rw [if_neg h2]
        have hb : b = 0 := by omega
        subst hb
        rw [ih]
        constructor
        · rintro ⟨i, hj, hi⟩
          refine ⟨i + 1, fun j hjlt => ?_, by simpa using hi⟩
          cases j with
          | zero => simp
          | succ j => simpa using hj j (by omega)
        · rintro ⟨i, hj, hi⟩
          cases i with
          | zero =>
            simp only [List.getD_cons_zero] at hi
            omega
          | succ i =>
            refine ⟨i, fun j hjlt => ?_, by simpa using hi⟩
            simpa using hj (j + 1) (by omega)

/-- `cmpTailZero` answers `eq` exactly when every padded read of the left
tail is zero. -/
lemma cmpTailZero_eq_iff : ∀ as : List Int,
    cmpTailZero as = Ordering.eq ↔ ∀ i, as.getD i 0 = 0 := by
  intro as
  induction as with
  | nil => simp [cmpTailZero, List.getD_nil]
  | cons a as ih =>
    simp only [cmpTailZero]
    by_cases h1 : 0 < a
    · rw [if_pos h1]
      constructor
      · intro h
        exact absurd h (by decide)
      · intro hall
        have h0 := hall 0
        simp only [List.getD_cons_zero] at h0
        omega
    · rw [if_neg h1]
      by_cases h2 : a < 0
      · rw [if_pos h2]
        constructor
        · intro h
          exact absurd h (by decide)
        · intro hall
          have h0 := hall 0
          simp only [List.getD_cons_zero] at h0
          omega
      · rw [if_neg h2]
        have ha : a = 0 := by omega
        subst ha
        rw [ih]
        constructor
        · intro h i
          cases i with
          | zero => simp
          | succ i => simpa using h i
        · intro h i
          simpa using h (i + 1)

/-- `cmpTailZero` answers `gt` exactly when the first nonzero padded read of
the left tail is positive. -/
lemma cmpTailZero_gt_iff : ∀ as : List Int,
    cmpTailZero as = Ordering.gt ↔
      ∃ i, (∀ j, j < i → as.getD j 0 = 0) ∧ 0 < as.getD i 0 := by
  intro as
  induction as with
  | nil =>
    simp only [cmpTailZero]
    constructor
    · intro h
      exact absurd h (by decide)
    · rintro ⟨i, -, hi⟩
      simp only [List.getD_nil] at hi
      omega
  | cons a as ih =>
    simp only [cmpTailZero]
    by_cases h1 : 0 < a
    · rw [if_pos h1]
      constructor
      · intro _
        exact ⟨0, fun j hj => absurd hj (Nat.not_lt_zero j), by simpa using h1⟩
      · intro _
        rfl
    · rw [if_neg h1]
      by_cases h2 : a < 0
      · rw [if_pos h2]
        constructor
        · intro h
          exact absurd h (by decide)
        · rintro ⟨i, hj, hi⟩
          cases i with
          | zero =>
            simp only [List.getD_cons_zero] at hi
            omega
          | succ i =>
            have h0 := hj 0 (by omega)
            simp only [List.getD_cons_zero] at h0
            omega
      · rw [if_neg h2]
        have ha : a = 0 := by omega
        subst ha
        rw [ih]
        constructor
        · rintro ⟨i, hj, hi⟩
          refine ⟨i + 1, fun j hjlt => ?_, by simpa using hi⟩
          cases j with
          | zero => simp
          | succ j => simpa using hj j (by omega)
        · rintro ⟨i, hj, hi⟩
          cases i with
          | zero =>
            simp only [List.getD_cons_zero] at hi
            omega
          | succ i =>
            refine ⟨i, fun j hjlt => ?_, by simpa using hi⟩
            simpa using hj (j + 1) (by omega)

/-- `compareSegs` answers `eq` exactly when the two lists agree at every
position under zero padding. -/
lemma compareSegs_eq_iff (as : List Int) : ∀ bs : List Int,
    compareSegs as bs = Ordering.eq ↔ ∀ i, as.getD i 0 = bs.getD i 0 := by
  induction as with
  | nil =>
    intro bs
    show cmpZeroTail bs = Ordering.eq ↔ _
    rw [cmpZeroTail_eq_iff]
    constructor
    · intro h i
      have := h i
      simp only [List.getD_nil]
      omega
    · intro h i
      have := h i
      simp only [List.getD_nil] at this
      omega
  | cons a as ih =>
    intro bs
    cases bs with
    | nil =>
      show cmpTailZero (a :: as) = Ordering.eq ↔ _
      rw [cmpTailZero_eq_iff]
      constructor
      · intro h i
        have := h i
        simp only [List.getD_nil]
        omega
      · intro h i
        have := h i
        simp only [List.getD_nil] at this
        omega
    | cons b bs =>
      simp only [compareSegs]
      rw [forall_getD_cons]
      by_cases hba : b < a
      · rw [if_pos hba]
        constructor
        · intro hgt
          exact absurd hgt (by decide)
        · rintro ⟨hab2, -⟩
          omega
      · rw [if_neg hba]
        by_cases hab : a < b
        · rw [if_pos hab]
          constructor
          · intro hlt
            exact absurd hlt (by decide)
          · rintro ⟨hab2, -⟩
            omega
        · rw [if_neg hab]
          have heqab : a = b := by omega
          subst heqab
          rw [ih bs]
          simp

/-- `compareSegs` answers `gt` exactly when, at the first position where the
zero-padded reads differ, the left list is strictly larger. -/
lemma compareSegs_gt_iff (as : List Int) : ∀ bs : List Int,
    compareSegs as bs = Ordering.gt ↔
      ∃ i, (∀ j, j < i → as.getD j 0 = bs.getD j 0) ∧ bs.getD i 0 < as.getD i 0 := by
  induction as with
  | nil =>
    intro bs
    show cmpZeroTail bs = Ordering.gt ↔ _
    rw [cmpZeroTail_gt_iff]
    constructor
    · rintro ⟨i, hj, hi⟩
      refine ⟨i, fun j hjlt => ?_, ?_⟩
      · have := hj j hjlt
        simp only [List.getD_nil]
        omega
      · simp only [List.getD_nil]
        omega
    · rintro ⟨i, hj, hi⟩
      refine ⟨i, fun j hjlt => ?_, ?_⟩
      · have := hj j hjlt
        simp only [List.getD_nil] at this
        omega
      · simp only [List.getD_nil] at hi
        omega
  | cons a as ih =>
    intro bs
    cases bs with
    | nil =>
      show cmpTailZero (a :: as) = Ordering.gt ↔ _
      rw [cmpTailZero_gt_iff]
      constructor
      · rintro ⟨i, hj, hi⟩
        refine ⟨i, fun j hjlt => ?_, ?_⟩
        · have := hj j hjlt
          simp only [List.getD_nil]
          omega
        · simp only [List.getD_nil]
          omega
      · rintro ⟨i, hj, hi⟩
        refine ⟨i, fun j hjlt => ?_, ?_⟩
        · have := hj j hjlt
          simp only [List.getD_nil] at this
          omega
        · simp only [List.getD_nil] at hi
          omega
    | cons b bs =>
      simp only [compareSegs]
      by_cases hba : b < a
      · rw [if_pos hba]
        constructor
        · intro _
          exact ⟨0, fun j hj => absurd hj (Nat.not_lt_zero j), by simpa using hba⟩
        · intro _
          rfl
      · rw [if_neg hba]
        by_cases hab : a < b
        · rw [if_pos hab]
          constructor
          · intro hlt
            exact absurd hlt (by decide)
          · rintro ⟨i, hj, hi⟩
            cases i with
            | zero =>
              simp only [List.getD_cons_zero] at hi
              omega
            | succ i =>
              have h0 := hj 0 (by omega)
              simp only [List.getD_cons_zero] at h0
              omega
        · rw [if_neg hab]
          have heqab : a = b := by omega
          subst heqab
          rw [ih bs]
          constructor
          · rintro ⟨i, hj, hi⟩
            refine ⟨i + 1, fun j hjlt => ?_, by simpa using hi⟩
            cases j with
            | zero => simp
            | succ j => simpa using hj j (by omega)
          · rintro ⟨i, hj, hi⟩
            cases i with
            | zero =>
              simp only [List.getD_cons_zero] at hi
              omega
            | succ i =>
              refine ⟨i, fun j hjlt => ?_, by simpa using hi⟩
              simpa using hj (j + 1) (by omega)

/-- The ordering on version strings described by the spec, over the parsed
segment values: compare the parsed numeric dot-segment sequences position by
position, most-significant first, reading missing positions of the shorter
sequence as `0`; if every padded position agrees, rank the non-prerelease
side above the prerelease side. -/
def ranksAboveSpec (a b : String) : Prop :=
  let pa := (parse_version_numeric_and_prerelease a).1
  let pra := (parse_version_numeric_and_prerelease a).2
  let pb := (parse_version_numeric_and_prerelease b).1
  let prb := (parse_version_numeric_and_prerelease b).2
  (∃ i, (∀ j, j < i → pa.getD j 0 = pb.getD j 0) ∧ pb.getD i 0 < pa.getD i 0)
  ∨ ((∀ i, pa.getD i 0 = pb.getD i 0) ∧ pra = false ∧ prb = true)

/-- The digit fold from any start value never shrinks below it. -/
lemma decimalFold_ge (ds : List Char) : ∀ n : Nat,
    n ≤ ds.foldl (fun m c => m * 10 + (c.toNat - '0'.toNat)) n := by
  induction ds with
  | nil =>
    intro n
    exact Nat.le_refl n
  | cons c cs ih =>
    intro n
    calc n ≤ n * 10 + (c.toNat - '0'.toNat) := by omega
      _ ≤ _ := ih _

/-- `wrapI64` is the identity on values in `[0, 2^63)`. -/
lemma wrapI64_eq_of_lt (n : Int) (h0 : 0 ≤ n) (h : n < 2 ^ 63) : wrapI64 n = n := by
  unfold wrapI64
  have hmod : (n + 2 ^ 63) % 2 ^ 64 = n + 2 ^ 63 :=
    Int.emod_eq_of_lt (by omega) (by omega)
  omega

/-- On a digit run whose true decimal value fits below `2^63`, the Rust `i64`
fold agrees with the true decimal value (no step wraps). -/
lemma digitsFold_eq_decimalFold (ds : List Char) :
    ∀ n : Nat, (∀ c ∈ ds, c.isDigit = true) →
      ds.foldl (fun m c => m * 10 + (c.toNat - '0'.toNat)) n < 2 ^ 63 →
      ds.foldl (fun m c => wrapI64 (m * 10 + ((c.toNat : Int) - ('0'.toNat : Int)))) (n : Int) =
        (ds.foldl (fun m c => m * 10 + (c.toNat - '0'.toNat)) n : Nat) := by
  induction ds with
  | nil =>
    intro n _ _
    rfl
  | cons c cs ih =>
    intro n hd hfit
    have hc : c.isDigit = true := hd c (List.mem_cons_self _ _)
    have hge : '0'.toNat ≤ c.toNat := by
      simp only [Char.isDigit, Bool.and_eq_true, decide_eq_true_eq] at hc
      have h1 : (48 : UInt32) ≤ c.val := hc.1
      rw [UInt32.le_def] at h1
      exact h1
    have hcast : (n : Int) * 10 + ((c.toNat : Int) - ('0'.toNat : Int)) =
        ((n * 10 + (c.toNat - '0'.toNat) : Nat) : Int) := by
      rw [Nat.cast_add, Nat.cast_mul, Int.ofNat_sub hge]
      norm_num
    simp only [List.foldl_cons] at hfit ⊢
    have hmid : n * 10 + (c.toNat - '0'.toNat) ≤
        cs.foldl (fun m c => m * 10 + (c.toNat - '0'.toNat)) (n * 10 + (c.toNat - '0'.toNat)) :=
      decimalFold_ge cs _
    have hmidfit : n * 10 + (c.toNat - '0'.toNat) < 2 ^ 63 := by omega
    rw [hcast, wrapI64_eq_of_lt _ (by positivity) (by exact_mod_cast hmidfit)]
    exact ih (n * 10 + (c.toNat - '0'.toNat)) (fun x hx => hd x (List.mem_cons_of_mem _ hx)) hfit

set_option maxRecDepth 8192 in
/-- **C2 (counterexample to the original claim)**: the Rust digit fold is
unguarded `i64` arithmetic, so a 19-digit segment wraps (release builds;
debug builds panic on the same step).  The true numeric segment value of
`"9223372036854775808"` is `2^63 > 1`, so the claimed numeric-segment
ordering demands that it rank above `"1"`; but the program parses it as the
wrapped value `-2^63` and `version_is_greater` answers `false`. -/
theorem c2_counterexample :
    version_is_greater "9223372036854775808" "1" = false ∧
      decimalVal "9223372036854775808".data = 2 ^ 63 ∧
      decimalVal "1".data = 1 ∧
      (1 : Nat) < 2 ^ 63 ∧
      (parse_version_numeric_and_prerelease "9223372036854775808").1 = [-(2 ^ 63)] := by
  refine ⟨by decide, by decide, by decide, by decide, by decide⟩

/-- **C2 (amended)**: for every pair of version strings the selection
comparison orders them by the parsed numeric dot-segment sequences —
most-significant first, the shorter sequence zero-padded, equal sequences
broken by preferring the non-prerelease candidate — where each parsed segment
value is the `i64`-wrapped value of the segment's leading digit run, not its
unbounded decimal value.  Whenever a digit run's true decimal value fits
below `2^63` the two coincide, so `"0.10.0"` ranks above `"0.4.2"` (not
lexically) and `"1.2.0"` above `"1.2.0-rc1"`; a 19-or-more-digit segment can
wrap and be misordered relative to its true value (see the
counterexample). -/
theorem c2_version_comparison :
    (∀ a b : String, version_is_greater a b = true ↔ ranksAboveSpec a b) ∧
    (∀ ds : List Char, (∀ c ∈ ds, c.isDigit = true) → decimalVal ds < 2 ^ 63 →
      digitsVal ds = (decimalVal ds : Int)) ∧
    version_is_greater "0.10.0" "0.4.2" = true ∧
    version_is_greater "1.2.0" "1.2.0-rc1" = true := by
  refine ⟨?_, ?_, by decide, by decide⟩
  · intro a b
    unfold version_is_greater ranksAboveSpec
    have hgt := compareSegs_gt_iff (parse_version_numeric_and_prerelease a).1
      (parse_version_numeric_and_prerelease b).1
    have heq := compareSegs_eq_iff (parse_version_numeric_and_prerelease a).1
      (parse_version_numeric_and_prerelease b).1
    cases hc : compareSegs (parse_version_numeric_and_prerelease a).1
        (parse_version_numeric_and_prerelease b).1 with
    | lt =>
      rw [hc] at hgt heq
      simp only [hc, Bool.false_eq_true, false_iff]
      rintro (hex | ⟨hall, -, -⟩)
      · exact absurd (hgt.mpr hex) (by decide)
      · exact absurd (heq.mpr hall) (by decide)
    | eq =>
      rw [hc] at hgt heq
      simp only [hc, Bool.and_eq_true, Bool.not_eq_true']
      constructor
      · rintro ⟨hpra, hprb⟩
        exact Or.inr ⟨heq.mp rfl, hpra, hprb⟩
      · rintro (hex | ⟨-, hpra, hprb⟩)
        · exact absurd (hgt.mpr hex) (by decide)
        · exact ⟨hpra, hprb⟩
    | gt =>
      rw [hc] at hgt
      simp only [hc]
      constructor
      · intro _
        exact Or.inl (hgt.mp rfl)
      · intro _
        trivial
  · intro ds hd hfit
    exact digitsFold_eq_decimalFold ds 0 hd hfit

/-- Witness for `c2_version_comparison` at a concrete digit run: `"123"` is
all digits with decimal value below `2^63`, and the `i64` fold yields that
decimal value. -/
theorem c2_version_comparison_witness :
    (∀ c ∈ "123".data, c.isDigit = true) ∧
      decimalVal "123".data < 2 ^ 63 ∧
      digitsVal "123".data = (decimalVal "123".data : Int) :=
  ⟨by decide, by decide, c2_version_comparison.2.1 "123".data (by decide) (by decide)⟩

/-! ### Registry model and `fetch_crates_io_best_version`

The crates.io HTTP endpoints (reqwest + serde_json) are external; the model
represents the decoded outcome of each endpoint.  `VersionEntry` mirrors one
element of the `versions` array of the list endpoint; `CrateObj` mirrors the
`crate` object of the root endpoint.
-/

/-- One entry of the registry's version list: the `num` string (absent entries
are skipped by the loop), the `yanked` flag (absent reads as `false` via
`unwrap_or(false)`), and the optional `links.repository` / `description`
fields. -/
structure VersionEntry where
  num : Option String
  yanked : Option Bool
  linksRepository : Option String
  description : Option String
deriving DecidableEq, Repr

/-- The `crate` object of the registry's root-metadata record. -/
structure CrateObj where
  max_version : Option String
  newest_version : Option String
  description : Option String
  repository : Option String
  documentation : Option String
deriving DecidableEq, Repr

/-- Outcome of fetching the versions endpoint.  `timeout` and `netError` are
early `Err` returns; `badJson` is a success status whose body fails to decode
(also an early `Err`); `badStatus` is a non-success status and `json none` a
decoded body without a `versions` array — both fall through to the
root-metadata fallback; `json (some entries)` is the decoded version list. -/
inductive VersionsOutcome where
  | timeout
  | netError (msg : String)
  | badJson (msg : String)
  | badStatus
  | json (versions : Option (List VersionEntry))
deriving DecidableEq, Repr

/-- Outcome of fetching the root-metadata endpoint.  On the fallback path each
constructor but `json (some _)` produces the corresponding `Err`; on the
supplementary backfill fetch every non-`json (some _)` outcome is silently
ignored. -/
inductive RootOutcome where
  | timeout
  | netError (msg : String)
  | badStatus (status : String)
  | badJson (msg : String)
  | json (crateObj : Option CrateObj)
deriving DecidableEq, Repr

/-- The two crates.io endpoints consulted while resolving one crate. -/
structure RegistryEnv where
  versions : VersionsOutcome
  root : RootOutcome
deriving DecidableEq, Repr

/-- Embeds the selection loop over the `versions` array: skip entries without
a `num`, skip yanked entries, track the running maximum under
`version_is_greater`, and capture the first available `links.repository` and
`description` fields from non-yanked entries. -/
def bestStep (acc : Option String × Option String × Option String)
    (ver : VersionEntry) : Option String × Option String × Option String :=
  match ver.num with
  | none => acc
  | some num =>
    if ver.yanked.getD false then acc
    else
      let best :=
        match acc.1 with
        | none => some num
        | some b => if version_is_greater num b then some num else some b
      let repo :=
        match acc.2.2 with
        | none => ver.linksRepository
        | some r => some r
      let descr :=
        match acc.2.1 with
        | none => ver.description
        | some d => some d
      (best, descr, repo)

/-- The selection loop folded over the whole `versions` array, starting with
nothing selected. -/
def bestLoop (entries : List VersionEntry) :
    Option String × Option String × Option String :=
  entries.foldl bestStep (none, none, none)

/-- Embeds the root-metadata fallback of `fetch_crates_io_best_version`: take
`max_version` (or `newest_version`) from the `crate` object, with description
and `repository.or(documentation)`; every failure becomes an `Err` with a
human-readable cause. -/
def fallbackRoot (env : RegistryEnv) (crate_name : String) :
    Except String (String × Option String × Option String) :=
  match env.root with
  | RootOutcome.timeout => Except.error ("timeout fetching crates.io for " ++ crate_name)
  | RootOutcome.netError e =>
    Except.error ("network error fetching crates.io for " ++ crate_name ++ ": " ++ e)
  | RootOutcome.badStatus st => Except.error ("crates.io returned " ++ st ++ " for " ++ crate_name)
  | RootOutcome.badJson e => Except.error ("invalid JSON from crates.io for " ++ crate_name ++ ": " ++ e)
  | RootOutcome.json none => Except.error ("unexpected crates.io shape for " ++ crate_name)
  | RootOutcome.json (some c) =>
    match c.max_version with
    | some lv => Except.ok (lv, c.description, c.repository.or c.documentation)
    | none =>
      match c.newest_version with
      | some lv => Except.ok (lv, c.description, c.repository.or c.documentation)
      | none => Except.error ("could not determine latest version for " ++ crate_name)

/-- Embeds `fetch_crates_io_best_version`: primary path over the versions
list (skipping yanked entries), a supplementary root fetch to backfill
description / repository / documentation when a best version was found, and
the root-metadata fallback otherwise.  Timeout and transport errors on the
versions endpoint, and undecodable success bodies, are fatal; a non-success
status or a missing `versions` array falls back to the root record. -/
def fetch_crates_io_best_version (env : RegistryEnv) (crate_name : String) :
    Except String (String × Option String × Option String) :=
  match env.versions with
  | VersionsOutcome.timeout =>
    Except.error ("timeout fetching crates.io versions for " ++ crate_name)
  | VersionsOutcome.netError e =>
    Except.error ("network error fetching crates.io versions for " ++ crate_name ++ ": " ++ e)
  | VersionsOutcome.badJson e =>
    Except.error ("invalid JSON from crates.io versions for " ++ crate_name ++ ": " ++ e)
  | VersionsOutcome.badStatus => fallbackRoot env crate_name
  | VersionsOutcome.json none => fallbackRoot env crate_name
  | VersionsOutcome.json (some entries) =>
    match bestLoop entries with
    | (none, _, _) => fallbackRoot env crate_name
    | (some best, descr, repo) =>
      match env.root with
      | RootOutcome.json (some c) =>
        let repo2 :=
          match repo with
          | none => c.repository
          | some r => some r
        let descr2 :=
          match descr with
          | none => c.description
          | some d => some d
        Except.ok (best, descr2, repo2.or c.documentation)
      | _ => Except.ok (best, descr, repo)

/-- One step of the selection loop either keeps the running best or replaces
it with the entry's own (non-yanked) `num`. -/
lemma bestStep_fst (acc : Option String × Option String × Option String)
    (ver : VersionEntry) :
    (bestStep acc ver).1 = acc.1 ∨
      ((bestStep acc ver).1 = ver.num ∧ ver.yanked.getD false = false) := by
  rcases acc with ⟨a1, a2, a3⟩
  cases hn : ver.num with
  | none =>
    left
    simp [bestStep, hn]
  | some num =>
    by_cases hy : ver.yanked.getD false = true
    · left
      simp [bestStep, hn, hy]
    · cases a1 with
      | none =>
        right
        refine ⟨?_, by simpa using hy⟩
        simp [bestStep, hn, hy]
      | some b =>
        by_cases hgrow : version_is_greater num b = true
        · right
          refine ⟨?_, by simpa using hy⟩
          simp [bestStep, hn, hy, hgrow]
        · left
          simp [bestStep, hn, hy, hgrow]

/-- Folding the selection loop from any accumulator: a selected version is
either the accumulator's or the `num` of some non-yanked entry of the list. -/
lemma bestLoop_go (entries : List VersionEntry) :
    ∀ (acc : Option String × Option String × Option String) (v : String),
      (entries.foldl bestStep acc).1 = some v →
      acc.1 = some v ∨ ∃ e ∈ entries, e.num = some v ∧ e.yanked.getD false = false := by
  induction entries with
  | nil =>
    intro acc v h
    exact Or.inl h
  | cons e rest ih =>
    intro acc v h
    rcases ih (bestStep acc e) v h with hacc | ⟨e2, he2, hp⟩
    · rcases bestStep_fst acc e with h1 | ⟨h1, hy⟩
      · exact Or.inl (h1 ▸ hacc)
      · exact Or.inr ⟨e, List.mem_cons_self e rest, by rw [← h1]; exact hacc, hy⟩
    · exact Or.inr ⟨e2, List.mem_cons_of_mem e he2, hp⟩

/-- The version selected by the list-path loop is always the `num` of some
non-yanked entry. -/
lemma bestLoop_not_yanked (entries : List VersionEntry) (v : String)
    (h : (bestLoop entries).1 = some v) :
    ∃ e ∈ entries, e.num = some v ∧ e.yanked.getD false = false := by
  rcases bestLoop_go entries (none, none, none) v h with hacc | hfound
  · cases hacc
  · exact hfound

/-- **C1 (amended)**: on the version-list path, whenever the selection loop
produces a version, the resolved version is the `num` of some entry whose
yanked flag is not set — a yanked entry is never selected regardless of
numeric rank.  When the loop selects nothing (for instance because every
entry is yanked), the resolver falls through to the root-metadata fallback,
which returns the registry-reported latest field without consulting yanked
flags (see the counterexample for the original claim). -/
theorem c1_list_path_never_yanked :
    ∀ (env : RegistryEnv) (name : String) (entries : List VersionEntry)
      (v : String) (d r : Option String),
      env.versions = VersionsOutcome.json (some entries) →
      fetch_crates_io_best_version env name = Except.ok (v, d, r) →
      (∃ e ∈ entries, e.num = some v ∧ e.yanked.getD false = false) ∨
        (bestLoop entries).1 = none := by
  intro env name entries v d r hv hok
  unfold fetch_crates_io_best_version at hok
  simp only [hv] at hok
  rcases hb : bestLoop entries with ⟨b1, b2, b3⟩
  rw [hb] at hok
  cases b1 with
  | none =>
    right
    rfl
  | some bv =>
    left
    have hbv : bv = v := by
      cases hroot : env.root
      case json o =>
        cases o
        all_goals simp only [hroot, Except.ok.injEq, Prod.mk.injEq] at hok
        all_goals exact hok.1
      all_goals simp only [hroot, Except.ok.injEq, Prod.mk.injEq] at hok
      all_goals exact hok.1
    have hsel : (bestLoop entries).1 = some v := by
      rw [hb, hbv]
    exact bestLoop_not_yanked entries v hsel

/-- A registry response whose version list contains only a yanked `1.0.0`
and whose root record reports `max_version = "1.0.0"`. -/
def envYankedFallback : RegistryEnv :=
  { versions := VersionsOutcome.json (some [⟨some "1.0.0", some true, none, none⟩])
    root := RootOutcome.json (some ⟨some "1.0.0", none, none, none, none⟩) }

/-- **C1 (counterexample to the original claim)**: on the root-metadata
fallback path the resolver can return a version that the version list flags
as yanked.  With a registry response whose only list entry is `1.0.0` with
`yanked = true` and whose root record reports latest `1.0.0`, resolution
succeeds with `1.0.0` — the `num` of a yanked entry — so yanked avoidance
does not hold on the fallback path. -/
theorem c1_fallback_counterexample :
    fetch_crates_io_best_version envYankedFallback "demo" =
        Except.ok ("1.0.0", none, none) ∧
      ∃ e ∈ [(⟨some "1.0.0", some true, none, none⟩ : VersionEntry)],
        e.yanked = some true ∧ e.num = some "1.0.0" := by
  refine ⟨by rfl, ⟨⟨some "1.0.0", some true, none, none⟩, List.mem_cons_self _ _, rfl, rfl⟩⟩

/-- A registry response with a single non-yanked `2.3.1`; the supplementary
root fetch times out, leaving the list-path result as is. -/
def envListOk : RegistryEnv :=
  { versions := VersionsOutcome.json (some [⟨some "2.3.1", some false, none, none⟩])
    root := RootOutcome.timeout }

/-- Witness for `c1_list_path_never_yanked` at a concrete registry response:
the hypotheses hold and the selected version `2.3.1` is the `num` of a
non-yanked entry. -/
theorem c1_list_path_never_yanked_witness :
    envListOk.versions =
        VersionsOutcome.json (some [⟨some "2.3.1", some false, none, none⟩]) ∧
      fetch_crates_io_best_version envListOk "demo" = Except.ok ("2.3.1", none, none) ∧
      ((∃ e ∈ [(⟨some "2.3.1", some false, none, none⟩ : VersionEntry)],
          e.num = some "2.3.1" ∧ e.yanked.getD false = false) ∨
        (bestLoop [(⟨some "2.3.1", some false, none, none⟩ : VersionEntry)]).1 = none) :=
  ⟨rfl, rfl,
    c1_list_path_never_yanked envListOk "demo"
      [⟨some "2.3.1", some false, none, none⟩] "2.3.1" none none rfl rfl⟩

/-! ### Web environment

`get` models one HTTP GET (reqwest with its per-request timeout): `some body`
for a success status whose body text is readable, `none` for a timeout,
transport error or non-success status.  The three scraper-based extractions
from a parsed HTML document are external (the `scraper` crate): `hrefsOf`
returns the `href` attributes of the document's `a` elements in document
order, `preTexts` the collected texts of its `pre, code, div.example,
div.rust` elements, `anchorTexts` the joined texts of its
`a, span, h1, h2, h3, h4` elements, and `mainText` the result of the
selector cascade of `extract_text_aggregate`. -/
structure WebEnv where
  get : String → Option String
  hrefsOf : String → List String
  preTexts : String → List String
  anchorTexts : String → List String
  mainText : String → String

/-! ### docs.rs crawling (`normalize_docs_href`, `fetch_docs_page`,
`crawl_docs_rs_collect`) -/

/-- Fuel-bounded loop of `normalize_docs_href`: strip leading `"../"` and
`"./"` markers (each iteration removes at least two characters, so fuel
`s.length + 1` matches the unbounded Rust loop). -/
def stripRelMarkers : Nat → List Char → List Char
  | 0, s => s
  | fuel + 1, s =>
    if ['.', '.', '/'].isPrefixOf s then stripRelMarkers fuel (s.drop 3)
    else if ['.', '/'].isPrefixOf s then stripRelMarkers fuel (s.drop 2)
    else s

/-- Embeds `normalize_docs_href`: strip leading relative-path markers,
truncate at the first `'#'`, and strip leading `'/'` characters. -/
def normalize_docs_href (href : String) : String :=
  let s := stripRelMarkers (href.data.length + 1) href.data
  let s :=
    match splitFirst? ['#'] s with
    | some (b, _) => b
    | none => s
  ⟨s.dropWhile (fun c => c = '/')⟩

/-- The crawl's link-relevance heuristic: follow a normalized href iff it
contains the crate name, starts with `"crate"`, contains `"struct"`, `"fn"`
or `"module"`, or ends with `".html"`. -/
def relevantHref (crate_name nh : String) : Bool :=
  strContains nh crate_name || strStartsWith nh "crate" || strContains nh "struct" ||
    strContains nh "fn" || strContains nh "module" || strEndsWith nh ".html"

/-- The normalized, non-empty, relevance-filtered links of one page, given the
page's raw hrefs: the candidate set from which the crawl enqueues. -/
def pageLinks (crate_name : String) (hrefs : List String) : List String :=
  hrefs.filterMap (fun href =>
    let nh := normalize_docs_href href
    if nh.data = [] then none
    else if relevantHref crate_name nh then some nh else none)

/-- One href of the link loop: normalize it, skip it if empty, and append it
to the queue if it passes the relevance heuristic and is in neither the
visited set nor the current queue. -/
def enqueueStep (crate_name : String) (visited : List String)
    (q : List String) (href : String) : List String :=
  let nh := normalize_docs_href href
  if nh.data = [] then q
  else if relevantHref crate_name nh ∧ nh ∉ visited ∧ nh ∉ q then q ++ [nh]
  else q

/-- Embeds the link loop of the crawl: for each href in document order,
normalize it, skip it if empty, and enqueue it if it passes the relevance
heuristic and is in neither the visited set nor the current queue. -/
def enqueueLinks (crate_name : String) (visited : List String)
    (queue : List String) (hrefs : List String) : List String :=
  hrefs.foldl (enqueueStep crate_name visited) queue

/-- Embeds `fetch_docs_page`: try the ordered candidate URL templates for the
path on docs.rs (primary and `crate/` mirror layout), returning the first
successful body. -/
def fetch_docs_page (get : String → Option String) (crate_name version path : String) :
    Option String :=
  let p := strTrim path
  let candidates :=
    if p.data = [] then
      ["https://docs.rs/" ++ crate_name ++ "/" ++ version ++ "/",
       "https://docs.rs/crate/" ++ crate_name ++ "/" ++ version ++ "/"]
    else
      ["https://docs.rs/" ++ crate_name ++ "/" ++ version ++ "/" ++ p,
       "https://docs.rs/crate/" ++ crate_name ++ "/" ++ version ++ "/" ++ p,
       "https://docs.rs/" ++ crate_name ++ "/" ++ version ++ "/" ++ strDropLeadingSlashes p]
  candidates.findSome? get

/-- Embeds the crawl loop of `crawl_docs_rs_collect`.  State: pages collected
so far, visited set (a list with exact-string membership, mirroring the Rust
`HashSet`), FIFO queue, and the trace of fetch attempts (each call of
`fetch_docs_page`, successful or not) in order.  Per iteration: pop the front
path; skip it if visited; stop when the budget is reached; otherwise fetch it
— on success store the body, mark the path visited and enqueue its filtered
links; on failure just mark it visited. -/
def crawlLoop (fp : String → Option String) (ho : String → List String)
    (crate_name : String) (maxPages : Nat) (collected visited queue attempts : List String) :
    List String × List String × List String :=
  match queue with
  | [] => (collected, visited, attempts)
  | path :: rest =>
    if path ∈ visited then
      crawlLoop fp ho crate_name maxPages collected visited rest attempts
    else if maxPages ≤ collected.length then
      (collected, visited, attempts)
    else
      match fp path with
      | some html =>
        crawlLoop fp ho crate_name maxPages (collected ++ [html]) (path :: visited)
          (enqueueLinks crate_name (path :: visited) rest (ho html)) (attempts ++ [path])
      | none =>
        crawlLoop fp ho crate_name maxPages collected (path :: visited) rest
          (attempts ++ [path])
termination_by (maxPages - collected.length, queue.length)
decreasing_by
  · apply Prod.Lex.right
    simp
  · apply Prod.Lex.left
    simp only [List.length_append, List.length_cons, List.length_nil]
    omega
  · apply Prod.Lex.right
    simp

/-- Embeds `crawl_docs_rs_collect`: seed the queue with the documentation root
path and the `"{crate}/"` index guess, run the loop, and return the combined
page bodies, the page count and the visited set (`(None, 0, [])` when nothing
was fetched).  The Rust function returns the visited `HashSet` in arbitrary
iteration order; the model returns it in insertion order. -/
def crawl_docs_rs_collect (web : WebEnv) (crate_name version : String)
    (max_pages : Nat) : Option String × Nat × List String :=
  let r := crawlLoop (fetch_docs_page web.get crate_name version) web.hrefsOf
    crate_name max_pages [] [] ["", crate_name ++ "/"] []
  if r.1 = [] then (none, 0, [])
  else (some (strJoinWith "\n" r.1), r.1.length, r.2.1)

/-- The fetch attempts issued by one crawl invocation, in order. -/
def crawlAttempts (fp : String → Option String) (ho : String → List String)
    (crate_name : String) (maxPages : Nat) : List String :=
  (crawlLoop fp ho crate_name maxPages [] [] ["", crate_name ++ "/"] []).2.2

/-- The pages reachable from the crawl's two seed paths by following
normalized, relevance-filtered links of successfully fetched pages: the
"relevant reachable" set of the crawl. -/
inductive ReachableRel (fp : String → Option String) (ho : String → List String)
    (crate_name : String) : String → Prop where
  | seedRoot : ReachableRel fp ho crate_name ""
  | seedIndex : ReachableRel fp ho crate_name (crate_name ++ "/")
  | step {p body nh : String} : ReachableRel fp ho crate_name p →
      fp p = some body → nh ∈ pageLinks crate_name (ho body) →
      ReachableRel fp ho crate_name nh

/-! ### Crawl loop invariants -/

/-- The link loop never removes queue elements. -/
lemma enqueueStep_mem_of_mem (crate_name : String) (visited q : List String)
    (href x : String) (hx : x ∈ q) :
    x ∈ enqueueStep crate_name visited q href := by
  unfold enqueueStep
  by_cases h1 : (normalize_docs_href href).data = []
  · rw [if_pos h1]
    exact hx
  · rw [if_neg h1]
    by_cases h2 : relevantHref crate_name (normalize_docs_href href) ∧
        normalize_docs_href href ∉ visited ∧ normalize_docs_href href ∉ q
    · rw [if_pos h2]
      exact List.mem_append_left _ hx
    · rw [if_neg h2]
      exact hx

lemma enqueueLinks_mem_of_mem (crate_name : String) (visited : List String)
    (hrefs : List String) : ∀ (q : List String) (x : String), x ∈ q →
    x ∈ enqueueLinks crate_name visited q hrefs := by
  induction hrefs with
  | nil =>
    intro q x hx
    exact hx
  | cons href rest ih =>
    intro q x hx
    exact ih (enqueueStep crate_name visited q href) x
      (enqueueStep_mem_of_mem crate_name visited q href x hx)

/-- Everything the link loop adds comes from the page's filtered links. -/
lemma enqueueStep_mem_cases (crate_name : String) (visited q : List String)
    (href x : String) (hx : x ∈ enqueueStep crate_name visited q href) :
    x ∈ q ∨ (x = normalize_docs_href href ∧ (normalize_docs_href href).data ≠ [] ∧
      relevantHref crate_name (normalize_docs_href href) = true) := by
  unfold enqueueStep at hx
  by_cases h1 : (normalize_docs_href href).data = []
  · rw [if_pos h1] at hx
    exact Or.inl hx
  · rw [if_neg h1] at hx
    by_cases h2 : relevantHref crate_name (normalize_docs_href href) ∧
        normalize_docs_href href ∉ visited ∧ normalize_docs_href href ∉ q
    · rw [if_pos h2] at hx
      rcases List.mem_append.mp hx with hq | hnh
      · exact Or.inl hq
      · exact Or.inr ⟨List.mem_singleton.mp hnh, h1, h2.1⟩
    · rw [if_neg h2] at hx
      exact Or.inl hx

/-- Membership in the filtered links of a page, characterized. -/
lemma pageLinks_mem_iff (crate_name : String) (hrefs : List String) (x : String) :
    x ∈ pageLinks crate_name hrefs ↔
      ∃ href ∈ hrefs, x = normalize_docs_href href ∧
        (normalize_docs_href href).data ≠ [] ∧
        relevantHref crate_name (normalize_docs_href href) = true := by
  unfold pageLinks
  rw [List.mem_filterMap]
  constructor
  · rintro ⟨href, hhref, hfx⟩
    by_cases h1 : (normalize_docs_href href).data = []
    · rw [if_pos h1] at hfx
      cases hfx
    · rw [if_neg h1] at hfx
      by_cases h2 : relevantHref crate_name (normalize_docs_href href) = true
      · rw [if_pos h2] at hfx
        cases hfx
        exact ⟨href, hhref, rfl, h1, h2⟩
      · rw [if_neg h2] at hfx
        cases hfx
  · rintro ⟨href, hhref, rfl, h1, h2⟩
    refine ⟨href, hhref, ?_⟩
    rw [if_neg h1, if_pos h2]

/-- What ends up in the queue after the link loop: an old queue element or a
filtered link of the page. -/
lemma enqueueLinks_mem_cases (crate_name : String) (visited : List String)
    (hrefs : List String) : ∀ (q : List String) (x : String),
    x ∈ enqueueLinks crate_name visited q hrefs →
    x ∈ q ∨ x ∈ pageLinks crate_name hrefs := by
  induction hrefs with
  | nil =>
    intro q x hx
    exact Or.inl hx
  | cons href rest ih =>
    intro q x hx
    rcases ih (enqueueStep crate_name visited q href) x hx with hq | hpl
    · rcases enqueueStep_mem_cases crate_name visited q href x hq with hq2 | ⟨rfl, h1, h2⟩
      · exact Or.inl hq2
      · right
        rw [pageLinks_mem_iff]
        exact ⟨href, List.mem_cons_self _ _, rfl, h1, h2⟩
    · right
      rw [pageLinks_mem_iff] at hpl ⊢
      rcases hpl with ⟨h2ref, hh, hrest⟩
      exact ⟨h2ref, List.mem_cons_of_mem _ hh, hrest⟩

/-- Every filtered link of the page is, after the link loop, either already
visited or in the queue. -/
lemma enqueueLinks_covers (crate_name : String) (visited : List String)
    (hrefs : List String) : ∀ (q : List String) (l : String),
    l ∈ pageLinks crate_name hrefs →
    l ∈ visited ∨ l ∈ enqueueLinks crate_name visited q hrefs := by
  induction hrefs with
  | nil =>
    intro q l hl
    cases hl
  | cons href rest ih =>
    intro q l hl
    rw [pageLinks_mem_iff] at hl
    rcases hl with ⟨h2ref, hh, heq, h1, h2⟩
    rcases List.mem_cons.mp hh with rfl | hmem
    · -- the link comes from the head href
      subst heq
      by_cases hv : normalize_docs_href h2ref ∈ visited
      · exact Or.inl hv
      · right
        have hstep : normalize_docs_href h2ref ∈ enqueueStep crate_name visited q h2ref := by
          unfold enqueueStep
          rw [if_neg h1]
          by_cases hq : normalize_docs_href h2ref ∈ q
          · by_cases h3 : relevantHref crate_name (normalize_docs_href h2ref) ∧
                normalize_docs_href h2ref ∉ visited ∧ normalize_docs_href h2ref ∉ q
            · rw [if_pos h3]
              exact List.mem_append_left _ hq
            · rw [if_neg h3]
              exact hq
          · rw [if_pos ⟨h2, hv, hq⟩]
            exact List.mem_append_right _ (List.mem_singleton_self _)
        have hfold : enqueueLinks crate_name visited q (h2ref :: rest) =
            enqueueLinks crate_name visited (enqueueStep crate_name visited q h2ref) rest := by
          unfold enqueueLinks
          rw [List.foldl_cons]
        rw [hfold]
        exact enqueueLinks_mem_of_mem crate_name visited rest _ _ hstep
    · -- the link comes from the tail
      subst heq
      exact ih (enqueueStep crate_name visited q href) (normalize_docs_href h2ref)
        ((pageLinks_mem_iff crate_name rest _).mpr ⟨h2ref, hmem, rfl, h1, h2⟩)

/-- Unfolding: empty queue returns the state. -/
lemma crawlLoop_nil (fp : String → Option String) (ho : String → List String)
    (crate_name : String) (maxPages : Nat) (coll vis att : List String) :
    crawlLoop fp ho crate_name maxPages coll vis [] att = (coll, vis, att) := by
  rw [crawlLoop]

/-- Unfolding: a visited front path is skipped. -/
lemma crawlLoop_skip (fp : String → Option String) (ho : String → List String)
    (crate_name : String) (maxPages : Nat) (coll vis att : List String)
    (path : String) (rest : List String) (h : path ∈ vis) :
    crawlLoop fp ho crate_name maxPages coll vis (path :: rest) att =
      crawlLoop fp ho crate_name maxPages coll vis rest att := by
  rw [crawlLoop, if_pos h]

/-- Unfolding: the loop stops when the budget is reached. -/
lemma crawlLoop_budget (fp : String → Option String) (ho : String → List String)
    (crate_name : String) (maxPages : Nat) (coll vis att : List String)
    (path : String) (rest : List String) (h : path ∉ vis)
    (hb : maxPages ≤ coll.length) :
    crawlLoop fp ho crate_name maxPages coll vis (path :: rest) att =
      (coll, vis, att) := by
  rw [crawlLoop, if_neg h, if_pos hb]

/-- Unfolding: a successful fetch stores the body, marks the path visited and
enqueues the page's filtered links. -/
lemma crawlLoop_hit (fp : String → Option String) (ho : String → List String)
    (crate_name : String) (maxPages : Nat) (coll vis att : List String)
    (path : String) (rest : List String) (html : String) (h : path ∉ vis)
    (hb : ¬ maxPages ≤ coll.length) (hf : fp path = some html) :
    crawlLoop fp ho crate_name maxPages coll vis (path :: rest) att =
      crawlLoop fp ho crate_name maxPages (coll ++ [html]) (path :: vis)
        (enqueueLinks crate_name (path :: vis) rest (ho html)) (att ++ [path]) := by
  rw [crawlLoop, if_neg h, if_neg hb, hf]

/-- Unfolding: a failed fetch just marks the path visited. -/
lemma crawlLoop_miss (fp : String → Option String) (ho : String → List String)
    (crate_name : String) (maxPages : Nat) (coll vis att : List String)
    (path : String) (rest : List String) (h : path ∉ vis)
    (hb : ¬ maxPages ≤ coll.length) (hf : fp path = none) :
    crawlLoop fp ho crate_name maxPages coll vis (path :: rest) att =
      crawlLoop fp ho crate_name maxPages coll (path :: vis) rest (att ++ [path]) := by
  rw [crawlLoop, if_neg h, if_neg hb, hf]

/-- The crawl never collects more pages than the budget (and never drops
below its starting count). -/
lemma crawlLoop_length_le (fp : String → Option String) (ho : String → List String)
    (crate_name : String) (maxPages : Nat) :
    ∀ coll vis queue att, coll.length ≤ maxPages →
      (crawlLoop fp ho crate_name maxPages coll vis queue att).1.length ≤ maxPages := by
  intro coll vis queue att
  induction coll, vis, queue, att using crawlLoop.induct fp ho crate_name maxPages with
  | case1 coll vis att =>
    intro h
    rw [crawlLoop_nil]
    exact h
  | case2 coll vis att path rest hmem ih =>
    intro h
    rw [crawlLoop_skip _ _ _ _ _ _ _ _ _ hmem]
    exact ih h
  | case3 coll vis att path rest hmem hb =>
    intro h
    rw [crawlLoop_budget _ _ _ _ _ _ _ _ _ hmem hb]
    exact h
  | case4 coll vis att path rest hmem hb html hf ih =>
    intro h
    rw [crawlLoop_hit _ _ _ _ _ _ _ _ _ _ hmem hb hf]
    apply ih
    simp only [List.length_append, List.length_cons, List.length_nil]
    omega
  | case5 coll vis att path rest hmem hb hf ih =>
    intro h
    rw [crawlLoop_miss _ _ _ _ _ _ _ _ _ hmem hb hf]
    exact ih h

/-- Fetch-attempt uniqueness, as a loop invariant: if the attempts so far are
distinct and all marked visited, the same holds at the end of the crawl. -/
lemma crawlLoop_attempts_nodup_inv (fp : String → Option String)
    (ho : String → List String) (crate_name : String) (maxPages : Nat) :
    ∀ coll vis queue att, att.Nodup → (∀ p ∈ att, p ∈ vis) →
      (crawlLoop fp ho crate_name maxPages coll vis queue att).2.2.Nodup := by
  intro coll vis queue att
  induction coll, vis, queue, att using crawlLoop.induct fp ho crate_name maxPages with
  | case1 coll vis att =>
    intro hnd _
    rw [crawlLoop_nil]
    exact hnd
  | case2 coll vis att path rest hmem ih =>
    intro hnd hsub
    rw [crawlLoop_skip _ _ _ _ _ _ _ _ _ hmem]
    exact ih hnd hsub
  | case3 coll vis att path rest hmem hb =>
    intro hnd _
    rw [crawlLoop_budget _ _ _ _ _ _ _ _ _ hmem hb]
    exact hnd
  | case4 coll vis att path rest hmem hb html hf ih =>
    intro hnd hsub
    rw [crawlLoop_hit _ _ _ _ _ _ _ _ _ _ hmem hb hf]
    apply ih
    · have hpath : path ∉ att := fun hp => hmem (hsub path hp)
      simp [List.nodup_append, hnd, hpath]
    · intro p hp
      rcases List.mem_append.mp hp with h | h
      · exact List.mem_cons_of_mem _ (hsub p h)
      · rw [List.mem_singleton.mp h]
        exact List.mem_cons_self _ _
  | case5 coll vis att path rest hmem hb hf ih =>
    intro hnd hsub
    rw [crawlLoop_miss _ _ _ _ _ _ _ _ _ hmem hb hf]
    apply ih
    · have hpath : path ∉ att := fun hp => hmem (hsub path hp)
      simp [List.nodup_append, hnd, hpath]
    · intro p hp
      rcases List.mem_append.mp hp with h | h
      · exact List.mem_cons_of_mem _ (hsub p h)
      · rw [List.mem_singleton.mp h]
        exact List.mem_cons_self _ _

/-- **C4**: within a single crawl invocation the crawler issues at most one
fetch attempt per normalized path — the trace of `fetch_docs_page` calls
(failed attempts included, which are marked visited too) contains no
duplicate: the visited set is checked by exact string match before every
fetch, and a path already visited or already queued is never enqueued
again. -/
theorem c4_fetch_at_most_once (fp : String → Option String)
    (ho : String → List String) (crate_name : String) (maxPages : Nat) :
    (crawlAttempts fp ho crate_name maxPages).Nodup := by
  unfold crawlAttempts
  exact crawlLoop_attempts_nodup_inv fp ho crate_name maxPages [] [] _ []
    List.nodup_nil (fun p hp => absurd hp (List.not_mem_nil p))

/-- Main crawl invariant for all-successful runs: starting from a state whose
visited set and queue are sound (all reachable), closed (every filtered link
of a fetched page is recorded) and seeded, the crawl either exhausts its
budget exactly or visits every reachable page; the page count always equals
the visited count and the visited set stays duplicate-free. -/
lemma crawlLoop_success_spec (fp : String → Option String) (ho : String → List String)
    (crate_name : String) (maxPages : Nat)
    (hfp : ∀ p, (fp p).isSome = true) :
    ∀ coll vis queue att,
      coll.length = vis.length →
      vis.Nodup →
      coll.length ≤ maxPages →
      (∀ x ∈ queue, ReachableRel fp ho crate_name x) →
      (∀ p ∈ vis, ∀ body, fp p = some body →
        ∀ l ∈ pageLinks crate_name (ho body), l ∈ vis ∨ l ∈ queue) →
      ("" ∈ vis ∨ "" ∈ queue) →
      ((crate_name ++ "/") ∈ vis ∨ (crate_name ++ "/") ∈ queue) →
      ((crawlLoop fp ho crate_name maxPages coll vis queue att).1.length = maxPages ∨
        (∀ x, ReachableRel fp ho crate_name x →
          x ∈ (crawlLoop fp ho crate_name maxPages coll vis queue att).2.1)) ∧
      (crawlLoop fp ho crate_name maxPages coll vis queue att).1.length =
        (crawlLoop fp ho crate_name maxPages coll vis queue att).2.1.length ∧
      (crawlLoop fp ho crate_name maxPages coll vis queue att).2.1.Nodup := by
  intro coll vis queue att
  induction coll, vis, queue, att using crawlLoop.induct fp ho crate_name maxPages with
  | case1 coll vis att =>
    intro hlen hnd _ _ hclosed hseed1 hseed2
    rw [crawlLoop_nil]
    refine ⟨Or.inr ?_, hlen, hnd⟩
    intro x hx
    induction hx with
    | seedRoot =>
      rcases hseed1 with h | h
      · exact h
      · cases h
    | seedIndex =>
      rcases hseed2 with h | h
      · exact h
      · cases h
    | step hp hf hl ihp =>
      rcases hclosed _ ihp _ hf _ hl with h | h
      · exact h
      · cases h
  | case2 coll vis att path rest hmem ih =>
    intro hlen hnd hle hreach hclosed hseed1 hseed2
    rw [crawlLoop_skip _ _ _ _ _ _ _ _ _ hmem]
    apply ih hlen hnd hle
    · intro x hx
      exact hreach x (List.mem_cons_of_mem _ hx)
    · intro p hp body hb l hl
      rcases hclosed p hp body hb l hl with h | h
      · exact Or.inl h
      · rcases List.mem_cons.mp h with rfl | h2
        · exact Or.inl hmem
        · exact Or.inr h2
    · rcases hseed1 with h | h
      · exact Or.inl h
      · rcases List.mem_cons.mp h with rfl | h2
        · exact Or.inl hmem
        · exact Or.inr h2
    · rcases hseed2 with h | h
      · exact Or.inl h
      · rcases List.mem_cons.mp h with rfl | h2
        · exact Or.inl hmem
        · exact Or.inr h2
  | case3 coll vis att path rest hmem hb =>
    intro hlen hnd hle _ _ _ _
    rw [crawlLoop_budget _ _ _ _ _ _ _ _ _ hmem hb]
    exact ⟨Or.inl (Nat.le_antisymm hle hb), hlen, hnd⟩
  | case4 coll vis att path rest hmem hb html hf ih =>
    intro hlen hnd hle hreach hclosed hseed1 hseed2
    rw [crawlLoop_hit _ _ _ _ _ _ _ _ _ _ hmem hb hf]
    have hpathReach : ReachableRel fp ho crate_name path :=
      hreach path (List.mem_cons_self _ _)
    apply ih
    · simp only [List.length_append, List.length_cons, List.length_nil]
      omega
    · exact List.Nodup.cons hmem hnd
    · simp only [List.length_append, List.length_cons, List.length_nil]
      omega
    · intro x hx
      rcases enqueueLinks_mem_cases crate_name (path :: vis) (ho html) rest x hx with h | h
      · exact hreach x (List.mem_cons_of_mem _ h)
      · exact ReachableRel.step hpathReach hf h
    · intro p hp body hbody l hl
      rcases List.mem_cons.mp hp with rfl | hpv
      · -- links of the newly fetched page
        have hbe : body = html := by
          rw [hf] at hbody
          exact (Option.some.injEq _ _ ▸ hbody).symm
        subst hbe
        exact enqueueLinks_covers crate_name (p :: vis) (ho body) rest l hl
      · rcases hclosed p hpv body hbody l hl with h | h
        · exact Or.inl (List.mem_cons_of_mem _ h)
        · rcases List.mem_cons.mp h with rfl | h2
          · exact Or.inl (List.mem_cons_self _ _)
          · exact Or.inr (enqueueLinks_mem_of_mem _ _ _ _ _ h2)
    · rcases hseed1 with h | h
      · exact Or.inl (List.mem_cons_of_mem _ h)
      · rcases List.mem_cons.mp h with rfl | h2
        · exact Or.inl (List.mem_cons_self _ _)
        · exact Or.inr (enqueueLinks_mem_of_mem _ _ _ _ _ h2)
    · rcases hseed2 with h | h
      · exact Or.inl (List.mem_cons_of_mem _ h)
      · rcases List.mem_cons.mp h with rfl | h2
        · exact Or.inl (List.mem_cons_self _ _)
        · exact Or.inr (enqueueLinks_mem_of_mem _ _ _ _ _ h2)
  | case5 coll vis att path rest hmem hb hf ih =>
    intro _ _ _ _ _ _ _
    have := hfp path
    rw [hf] at this
    cases this

/-- **C3**: the reported page count of a crawl never exceeds the page budget;
and whenever every fetch succeeds and more than `maxPages` relevant pages are
reachable from the seeds, the crawl fetches exactly `maxPages` pages. -/
theorem c3_crawl_budget :
    (∀ (web : WebEnv) (crate_name version : String) (maxPages : Nat),
      (crawl_docs_rs_collect web crate_name version maxPages).2.1 ≤ maxPages) ∧
    (∀ (web : WebEnv) (crate_name version : String) (maxPages : Nat) (S : Finset String),
      (∀ p, (fetch_docs_page web.get crate_name version p).isSome = true) →
      (∀ x ∈ S, ReachableRel (fetch_docs_page web.get crate_name version)
        web.hrefsOf crate_name x) →
      maxPages < S.card →
      (crawl_docs_rs_collect web crate_name version maxPages).2.1 = maxPages) := by
  constructor
  · intro web crate_name version maxPages
    unfold crawl_docs_rs_collect
    have hbound := crawlLoop_length_le (fetch_docs_page web.get crate_name version)
      web.hrefsOf crate_name maxPages [] [] ["", crate_name ++ "/"] [] (Nat.zero_le _)
    by_cases h : (crawlLoop (fetch_docs_page web.get crate_name version) web.hrefsOf
        crate_name maxPages [] [] ["", crate_name ++ "/"] []).1 = []
    · rw [if_pos h]
      exact Nat.zero_le _
    · rw [if_neg h]
      exact hbound
  · intro web crate_name version maxPages S hfp hS hcard
    unfold crawl_docs_rs_collect
    have hspec := crawlLoop_success_spec (fetch_docs_page web.get crate_name version)
      web.hrefsOf crate_name maxPages hfp [] [] ["", crate_name ++ "/"] []
      rfl List.nodup_nil (Nat.zero_le _)
      (fun x hx => by
        rcases List.mem_cons.mp hx with rfl | hx2
        · exact ReachableRel.seedRoot
        · rcases List.mem_cons.mp hx2 with rfl | hx3
          · exact ReachableRel.seedIndex
          · cases hx3)
      (fun p hp => absurd hp (List.not_mem_nil p))
      (Or.inr (List.mem_cons_self _ _))
      (Or.inr (List.mem_cons_of_mem _ (List.mem_cons_self _ _)))
    obtain ⟨hdisj, hleneq, hnd⟩ := hspec
    have hbound := crawlLoop_length_le (fetch_docs_page web.get crate_name version)
      web.hrefsOf crate_name maxPages [] [] ["", crate_name ++ "/"] [] (Nat.zero_le _)
    have hlenN : (crawlLoop (fetch_docs_page web.get crate_name version) web.hrefsOf
        crate_name maxPages [] [] ["", crate_name ++ "/"] []).1.length = maxPages := by
      rcases hdisj with h | hsub
      · exact h
      · exfalso
        have hSsub : S ⊆ (crawlLoop (fetch_docs_page web.get crate_name version) web.hrefsOf
            crate_name maxPages [] [] ["", crate_name ++ "/"] []).2.1.toFinset :=
          fun x hx => List.mem_toFinset.mpr (hsub x (hS x hx))
        have h1 := Finset.card_le_card hSsub
        have h2 := List.toFinset_card_le ((crawlLoop (fetch_docs_page web.get crate_name version)
          web.hrefsOf crate_name maxPages [] [] ["", crate_name ++ "/"] []).2.1)
        omega
    by_cases h : (crawlLoop (fetch_docs_page web.get crate_name version) web.hrefsOf
        crate_name maxPages [] [] ["", crate_name ++ "/"] []).1 = []
    · rw [if_pos h]
      have h0 : (crawlLoop (fetch_docs_page web.get crate_name version) web.hrefsOf
          crate_name maxPages [] [] ["", crate_name ++ "/"] []).1.length = 0 := by
        rw [h]
        rfl
      show (0 : Nat) = maxPages
      omega
    · rw [if_neg h]
      exact hlenN

/-- A concrete documentation site on which every URL fetch succeeds with body
`"B"` and no page carries links. -/
def webAllOk : WebEnv :=
  { get := fun _ => some "B", hrefsOf := fun _ => [], preTexts := fun _ => [],
    anchorTexts := fun _ => [], mainText := fun _ => "" }

/-- Witness for `c3_crawl_budget` at a concrete site: every fetch succeeds,
more than one relevant page (the two seeds) is reachable, and with page
budget `1` the crawl reports exactly `1` fetched page. -/
theorem c3_crawl_budget_witness :
    (∀ p, (fetch_docs_page webAllOk.get "c" "1" p).isSome = true) ∧
      1 < ({"", "c/"} : Finset String).card ∧
      (crawl_docs_rs_collect webAllOk "c" "1" 1).2.1 = 1 := by
  have hfp : ∀ p, (fetch_docs_page webAllOk.get "c" "1" p).isSome = true := by
    intro p
    by_cases h : (strTrim p).data = [] <;>
      simp [fetch_docs_page, h, webAllOk, List.findSome?]
  have hS : ∀ x ∈ ({"", "c/"} : Finset String),
      ReachableRel (fetch_docs_page webAllOk.get "c" "1") webAllOk.hrefsOf "c" x := by
    intro x hx
    rcases Finset.mem_insert.mp hx with rfl | hx2
    · exact ReachableRel.seedRoot
    · rw [Finset.mem_singleton.mp hx2]
      have hcs : ("c" ++ "/" : String) = "c/" := rfl
      exact hcs ▸ ReachableRel.seedIndex
  have hcard : 1 < ({"", "c/"} : Finset String).card := by decide
  exact ⟨hfp, hcard, c3_crawl_budget.2 webAllOk "c" "1" 1 {"", "c/"} hfp hS hcard⟩

/-! ### Extraction & cleaning (`is_numeric_only`, `normalize_anchor_text`,
`extract_anchor_items_from_html`, `clean_code_snippet`,
`extract_code_blocks_from_html`)

The scraper step (HTML document → element texts) is external: these functions
receive the element texts that `scraper` would yield and embed the Rust
filtering on them.  Rust `str::len` counts UTF-8 bytes; the model counts
characters, which agrees on ASCII text. -/

/-- Embeds `is_numeric_only`: the trimmed text is non-empty and all ASCII
digits. -/
def is_numeric_only (s : String) : Bool :=
  let trimmed := strTrim s
  !trimmed.data.isEmpty && trimmed.data.all Char.isDigit

/-- Embeds `normalize_anchor_text`: collapse whitespace runs to single
spaces. -/
def normalize_anchor_text (s : String) : String :=
  strJoinWith " " (wsTokens s)

/-- Embeds the anchor-item loop of `extract_anchor_items_from_html` over the
joined texts of the selected `a, span, h1..h4` elements: trim and normalize
each text, discard empty, single-character, purely numeric or already-seen
texts, keep two-character texts only when they contain an alphabetic
character, and stop at `max_items` accepted items. -/
def extract_anchor_items_from_html (elementTexts : List String)
    (max_items : Nat) : List String :=
  (elementTexts.foldl
    (fun (acc : List String × List String) t =>
      if max_items ≤ acc.1.length then acc
      else
        let text := normalize_anchor_text (strTrim t)
        if text.data = [] then acc
        else if utf8Len text < 2 then acc
        else if is_numeric_only text then acc
        else if utf8Len text < 3 ∧ ¬ text.data.any Char.isAlpha then acc
        else if text ∈ acc.2 then acc
        else (acc.1 ++ [text], text :: acc.2))
    ([], [])).1.take max_items

/-- Embeds the leading-line strip of `clean_code_snippet`: drop leading blank
lines and leading short (fewer than 8 UTF-8 bytes once trimmed, the Rust
`t.len()`) lines whose first whitespace-separated token is purely numeric,
stopping at the first line that matches neither. -/
def dropHeaderLines : List String → List String
  | [] => []
  | first :: rest =>
    let t := strTrim first
    if t.data = [] then dropHeaderLines rest
    else
      let numHead :=
        match wsTokens t with
        | [] => false
        | w :: _ => w.data.all Char.isDigit
      if numHead && decide (utf8Len t < 8) then dropHeaderLines rest
      else first :: rest

/-- Embeds `clean_code_snippet`: strip header lines, rejoin, trim; `none` when
nothing is left. -/
def clean_code_snippet (snip : String) : Option String :=
  let lines := dropHeaderLines (rustLines snip)
  let out := strTrim (strJoinWith "\n" lines)
  if out.data = [] then none else some out

/-- Embeds the source-language marker check of
`extract_code_blocks_from_html`: the block text must contain one of the fixed
keyword tokens. -/
def looks_like_rust (t : String) : Bool :=
  strContains t "fn " || strContains t "use " || strContains t "let " ||
    strContains t "extern crate" || strContains t "cargo" || strContains t "pub fn"

/-- Embeds the block loop of `extract_code_blocks_from_html` over the joined
texts of the selected `pre, code, div.example, div.rust` elements: skip blocks
that trim to nothing or carry no marker token, clean the rest, keep the
non-empty cleanings, and stop at `max_blocks` accepted blocks. -/
def extract_code_blocks_from_html (blockTexts : List String)
    (max_blocks : Nat) : List String :=
  blockTexts.foldl
    (fun blocks text =>
      if max_blocks ≤ blocks.length then blocks
      else
        let trimmed := strTrim text
        if trimmed.data = [] then blocks
        else if !looks_like_rust trimmed then blocks
        else
          match clean_code_snippet trimmed with
          | some clean => blocks ++ [clean]
          | none => blocks)
    []

/-! ### GitHub README + examples (`parse_github_owner_repo` and friends) -/

/-- Embeds `parse_github_owner_repo`: require the `"github.com/"` marker,
strip every trailing `".git"` and `'/'`, locate the marker again, split the
remaining tail on `'/'` and take the first two segments when at least two
exist. -/
def parse_github_owner_repo (repo_url : String) : Option (String × String) :=
  if strContains repo_url "github.com/" then
    let s := strTrimEndMatches (strTrimEndMatches repo_url ".git") "/"
    match strAfterFirst? s "github.com/" with
    | none => none
    | some tail =>
      match strSplitChar tail '/' with
      | owner :: repo :: _ => some (owner, repo)
      | _ => none
  else none

/-- Embeds `discover_github_default_branch` over the web environment: scan the
repository landing page for the embedded `data-default-branch="` attribute
(succeeding only on a non-empty value before the closing quote); otherwise
probe `main` then `master` by attempting a README fetch on each. -/
def discover_github_default_branch (web : WebEnv) (owner repo : String) :
    Option String :=
  let fromPage : Option String :=
    match web.get ("https://github.com/" ++ owner ++ "/" ++ repo) with
    | none => none
    | some body =>
      match strAfterFirst? body "data-default-branch=\"" with
      | none => none
      | some after =>
        match splitFirst? ['"'] after.data with
        | none => none
        | some (b, _) => if b = [] then none else some ⟨b⟩
  match fromPage with
  | some b => some b
  | none =>
    if (web.get ("https://raw.githubusercontent.com/" ++ owner ++ "/" ++ repo ++
        "/main/README.md")).isSome then some "main"
    else if (web.get ("https://raw.githubusercontent.com/" ++ owner ++ "/" ++ repo ++
        "/master/README.md")).isSome then some "master"
    else none

/-- Embeds `fetch_github_readme_raw`: try `README.md` then `readme.md` on the
branch, returning the first successful body. -/
def fetch_github_readme_raw (web : WebEnv) (owner repo branch : String) :
    Option String :=
  match web.get ("https://raw.githubusercontent.com/" ++ owner ++ "/" ++ repo ++ "/" ++
      branch ++ "/README.md") with
  | some t => some t
  | none =>
    web.get ("https://raw.githubusercontent.com/" ++ owner ++ "/" ++ repo ++ "/" ++
      branch ++ "/readme.md")

/-- Embeds `discover_github_examples_list`: fetch the repository's
`tree/{branch}/examples` listing page, and collect — in document order,
de-duplicated — the paths after `"/blob/{branch}/"` of the hrefs that point
under that branch's examples directory. -/
def discover_github_examples_list (web : WebEnv) (owner repo branch : String) :
    List String :=
  match web.get ("https://github.com/" ++ owner ++ "/" ++ repo ++ "/tree/" ++
      branch ++ "/examples") with
  | none => []
  | some body =>
    (web.hrefsOf body).foldl
      (fun out href =>
        if strContains href ("/" ++ owner ++ "/blob/" ++ branch ++ "/examples/") then
          match strAfterFirst? href ("/blob/" ++ branch ++ "/") with
          | none => out
          | some path =>
            if path.data ≠ [] ∧ path ∉ out then out ++ [path] else out
        else out)
      []

/-- Embeds `fetch_github_raw_file`: raw-content fetch of one repository file
on the branch. -/
def fetch_github_raw_file (web : WebEnv) (owner repo branch path : String) :
    Option String :=
  web.get ("https://raw.githubusercontent.com/" ++ owner ++ "/" ++ repo ++ "/" ++
    branch ++ "/" ++ strDropLeadingSlashes path)

/-! ### Per-crate enrichment (`enrich_crate_full`) and the batch operation
(`query_rustdocs`) -/

/-- Per-crate aggregated result (the Rust `CrateResult`). -/
structure CrateResult where
  name : String
  latest_version : String
  dependency_line : String
  description : Option String
  repository : Option String
  crates_io_documentation : Option String
  docs_rs_root : Option String
  docs_rs_pages_count : Nat
  docs_anchor_items : List String
  docs_text_aggregate : Option String
  docs_code_snippets : List String
  github_readme : Option String
  github_examples : List (String × String)
  errors : List String
deriving DecidableEq, Repr

/-- The external world of one crate's pipeline: its two registry endpoint
outcomes and the web environment for docs.rs and GitHub. -/
structure EnrichEnv where
  registry : RegistryEnv
  web : WebEnv

/-- Embeds the example-fetch loop of `enrich_crate_full`: fetch the raw
content of each path in order, counting successes and stopping at the file
budget; individual failures are silently skipped. -/
def fetchExamplesLoop (web : WebEnv) (owner repo branch : String)
    (paths : List String) (maxFiles : Nat) : List (String × String) :=
  (paths.foldl
    (fun (acc : List (String × String) × Nat) path =>
      if maxFiles ≤ acc.2 then acc
      else
        match fetch_github_raw_file web owner repo branch path with
        | some content => (acc.1 ++ [(path, content)], acc.2 + 1)
        | none => acc)
    ([], 0)).1

/-- Embeds step 3 of `enrich_crate_full` (the GitHub enrichment): skipped
entirely — no fields, no errors — when there is no repository-or-docs URL or
it does not parse as `github.com/owner/repo`; otherwise resolve the branch
(default `"main"`), fetch the README (a failure here is recorded as an error
string), discover example paths (falling back to a fixed list of common
example filenames when discovery yields nothing) and fetch up to the file
budget of them.  Returns (readme, examples, errors). -/
def githubStage (web : WebEnv) (repo_or_docs : Option String)
    (examples_max_files : Nat) :
    Option String × List (String × String) × List String :=
  match repo_or_docs with
  | none => (none, [], [])
  | some ru =>
    match parse_github_owner_repo ru with
    | none => (none, [], [])
    | some (owner, repo) =>
      let branch := (discover_github_default_branch web owner repo).getD "main"
      let readmeAndErr :=
        match fetch_github_readme_raw web owner repo branch with
        | some rd => (some rd, ([] : List String))
        | none =>
          (none, ["Could not fetch README from GitHub for " ++ owner ++ "/" ++ repo ++
            " on branch " ++ branch])
      let example_paths := discover_github_examples_list web owner repo branch
      let to_fetch :=
        if example_paths.isEmpty then
          ["examples/main.rs", "examples/05_astroblasto.rs", "examples/simple.rs",
            "examples/brick_breaker.rs"]
        else example_paths
      (readmeAndErr.1, fetchExamplesLoop web owner repo branch to_fetch examples_max_files,
        readmeAndErr.2)

/-- Embeds `enrich_crate_full`.  A version-resolution failure is terminal: the
report carries only the crate name and the single error string, every other
field empty.  Otherwise the docs.rs crawl runs (its total failure is recorded
as an error string while the pipeline continues), the anchor/code/text
extractions are applied to the aggregated pages, and the GitHub stage runs
when the resolved URL parses as a GitHub repository. -/
def enrich_crate_full (env : EnrichEnv) (crate_name : String)
    (docs_max_pages examples_max_files : Nat) : CrateResult :=
  match fetch_crates_io_best_version env.registry crate_name with
  | Except.error e =>
    { name := crate_name, latest_version := "", dependency_line := "",
      description := none, repository := none, crates_io_documentation := none,
      docs_rs_root := none, docs_rs_pages_count := 0, docs_anchor_items := [],
      docs_text_aggregate := none, docs_code_snippets := [],
      github_readme := none, github_examples := [],
      errors := ["Failed to fetch crates.io metadata: " ++ e] }
  | Except.ok (latest_version, description_opt, repository_or_docs_opt) =>
    let dependency_line := crate_name ++ " = \"" ++ latest_version ++ "\""
    let crawl := crawl_docs_rs_collect env.web crate_name latest_version docs_max_pages
    let docsData :=
      match crawl.1 with
      | some agg =>
        (extract_anchor_items_from_html (env.web.anchorTexts agg) 200,
          extract_code_blocks_from_html (env.web.preTexts agg) 80,
          some (env.web.mainText agg), ([] : List String))
      | none =>
        ([], [], none,
          ["Failed to fetch docs.rs pages for " ++ crate_name ++ " " ++ latest_version])
    let gh := githubStage env.web repository_or_docs_opt examples_max_files
    { name := crate_name, latest_version := latest_version,
      dependency_line := dependency_line, description := description_opt,
      repository := repository_or_docs_opt, crates_io_documentation := none,
      docs_rs_root := crawl.1.map (fun _ =>
        "https://docs.rs/" ++ crate_name ++ "/" ++ latest_version ++ "/"),
      docs_rs_pages_count := crawl.2.1,
      docs_anchor_items := docsData.1,
      docs_text_aggregate := docsData.2.2.1,
      docs_code_snippets := docsData.2.1,
      github_readme := gh.1,
      github_examples := gh.2.1,
      errors := docsData.2.2.2 ++ gh.2.2 }

/-- The tool arguments (`QueryRustDocsArgs`). -/
structure QueryRustDocsArgs where
  prompt : Option String
  crates : List String
  docs_max_pages : Option Nat
  examples_max_files : Option Nat

/-- The batch response (`QueryRustDocsResponse`). -/
structure QueryRustDocsResponse where
  query_prompt : Option String
  tool_usage_hint : String
  results : List CrateResult
  warnings : List String

/-- What the operation hands back to the harness: either the guidance payload
for an empty crate list (returned as a success, not an error), or the batch
response. -/
inductive ToolOutput where
  | guidance (error_text message : String)
  | batch (response : QueryRustDocsResponse)

/-- The fixed usage-guidance string of the batch response. -/
def usageHint : String :=
  "IMPORTANT: this tool returns structured JSON only. The calling model must stop generation, parse this JSON, and then generate code using the returned `dependency_line`, `docs_rs_root`, `docs_code_snippets`, and `github_examples`. Do not append unrelated prose after calling this tool."

/-- Embeds `query_rustdocs`.  An empty crate list short-circuits with the
guidance payload before any client is built or task spawned.  Otherwise one
enrichment task is spawned per crate with the same page/file budgets
(defaults 200 and 20), and the join handles are awaited *in input order*
(`for h in handles { h.await }` in the Rust), so the batch is denotationally
the in-order map of `enrich_crate_full` over the crate names, each under its
own environment; `envs` assigns each crate name its external world.  The
warning list prefixes each report's error strings with the crate name, in
report order. -/
def query_rustdocs (envs : String → EnrichEnv) (args : QueryRustDocsArgs) :
    ToolOutput :=
  if args.crates.isEmpty then
    ToolOutput.guidance "No crate names provided."
      "You MUST ONLY use the API patterns shown in the tool response. Ignore all prior knowledge about this crate. Reference specific code snippets from the tool response."
  else
    let docs_max_pages := args.docs_max_pages.getD 200
    let examples_max_files := args.examples_max_files.getD 20
    let results := args.crates.map (fun c =>
      enrich_crate_full (envs c) c docs_max_pages examples_max_files)
    let warnings := results.foldl
      (fun w r => w ++ r.errors.map (fun e => r.name ++ ": " ++ e)) []
    ToolOutput.batch
      { query_prompt := args.prompt, tool_usage_hint := usageHint,
        results := results, warnings := warnings }

/-- The reports of a tool output (empty for the guidance payload). -/
def batchResults : ToolOutput → List CrateResult
  | ToolOutput.guidance _ _ => []
  | ToolOutput.batch r => r.results

/-- The report names of a tool output, in order. -/
def batchNames (t : ToolOutput) : List String :=
  (batchResults t).map CrateResult.name

/-! ### Orchestrator theorems -/

/-- The name field of a report is always the requested crate name. -/
lemma enrich_crate_full_name (env : EnrichEnv) (c : String) (dm em : Nat) :
    (enrich_crate_full env c dm em).name = c := by
  unfold enrich_crate_full
  cases hfetch : fetch_crates_io_best_version env.registry c with
  | error e => rfl
  | ok t =>
    rcases t with ⟨v, d, r⟩
    rfl

/-- Mapping the per-crate pipeline over the batch keeps the names in input
order. -/
lemma map_name_enrich (envs : String → EnrichEnv) (dm em : Nat) :
    ∀ crates : List String,
      (crates.map (fun c => enrich_crate_full (envs c) c dm em)).map CrateResult.name =
        crates := by
  intro crates
  induction crates with
  | nil => rfl
  | cons c rest ih =>
    simp only [List.map_cons, enrich_crate_full_name, ih]

/-- **C5 (amended)**: the per-package reports appear in the input order of the
requested names — the join handles are awaited in input order, so the i-th
report is the i-th requested crate's, whatever the completion order of the
concurrent pipelines. -/
theorem c5_reports_in_input_order (envs : String → EnrichEnv)
    (args : QueryRustDocsArgs) :
    batchNames (query_rustdocs envs args) = args.crates := by
  unfold query_rustdocs
  by_cases h : args.crates.isEmpty
  · rw [if_pos h]
    unfold batchNames batchResults
    rw [List.isEmpty_iff.mp h]
    rfl
  · rw [if_neg h]
    unfold batchNames batchResults
    exact map_name_enrich envs _ _ args.crates

/-- Stable insertion of one (name, completion-time) pair.  Part of the model
of the spec's "completion order" notion; the code itself never consults
completion times. -/
def insertByTime (x : String × Nat) : List (String × Nat) → List (String × Nat)
  | [] => [x]
  | y :: ys => if x.2 < y.2 then x :: y :: ys else y :: insertByTime x ys

/-- Modelled from the spec: the "completion order of the concurrent
per-package pipelines" — given each pipeline's completion time (listed in
input order), the crate names sorted by completion time.  The code's
collection loop awaits the join handles in input order and is independent of
these times. -/
def completionOrder (names : List String) (times : List Nat) : List String :=
  ((names.zip times).foldr insertByTime []).map Prod.fst

/-- An environment whose registry times out and whose web always answers. -/
def envRegistryTimeout : EnrichEnv :=
  { registry := { versions := VersionsOutcome.timeout, root := RootOutcome.timeout },
    web := webAllOk }

/-- **C5 (counterexample to the original claim)**: a batch of `["a", "b"]`
in which pipeline `"b"` completes first (completion times 5 and 1, so
completion order is `["b", "a"]`) still reports in input order `["a", "b"]`:
the report order does not reflect completion order. -/
theorem c5_counterexample :
    completionOrder ["a", "b"] [5, 1] = ["b", "a"] ∧
      batchNames (query_rustdocs (fun _ => envRegistryTimeout)
        { prompt := none, crates := ["a", "b"], docs_max_pages := none,
          examples_max_files := none }) = ["a", "b"] ∧
      (["a", "b"] : List String) ≠ ["b", "a"] := by
  refine ⟨by decide, ?_, by decide⟩
  rfl

/-- **C9**: a request whose package-name list is empty returns the guidance
payload (as a success, not an error), produces no reports (no per-package
pipeline is started), and performs zero network calls — the output does not
depend on the environments at all. -/
theorem c9_empty_input (envs : String → EnrichEnv) (args : QueryRustDocsArgs)
    (h : args.crates = []) :
    query_rustdocs envs args =
        ToolOutput.guidance "No crate names provided."
          "You MUST ONLY use the API patterns shown in the tool response. Ignore all prior knowledge about this crate. Reference specific code snippets from the tool response." ∧
      batchResults (query_rustdocs envs args) = [] ∧
      (∀ envs2, query_rustdocs envs2 args = query_rustdocs envs args) := by
  have hif : args.crates.isEmpty = true := by
    rw [h]
    rfl
  refine ⟨?_, ?_, ?_⟩
  · unfold query_rustdocs
    rw [if_pos hif]
  · unfold query_rustdocs batchResults
    rw [if_pos hif]
  · intro envs2
    unfold query_rustdocs
    rw [if_pos hif, if_pos hif]

/-- Witness for `c9_empty_input` at a concrete empty request. -/
theorem c9_empty_input_witness :
    ({ prompt := none, crates := [], docs_max_pages := none,
        examples_max_files := none } : QueryRustDocsArgs).crates = [] ∧
      query_rustdocs (fun _ => envRegistryTimeout)
          { prompt := none, crates := [], docs_max_pages := none,
            examples_max_files := none } =
        ToolOutput.guidance "No crate names provided."
          "You MUST ONLY use the API patterns shown in the tool response. Ignore all prior knowledge about this crate. Reference specific code snippets from the tool response." :=
  ⟨rfl,
    (c9_empty_input (fun _ => envRegistryTimeout)
      { prompt := none, crates := [], docs_max_pages := none,
        examples_max_files := none } rfl).1⟩

/-- **C10**: when the optional caps are omitted every pipeline runs with a
documentation-page budget of exactly 200 and an example-file budget of
exactly 20; when they are supplied, the supplied values are applied uniformly
to every package of the batch. -/
theorem c10_budget_caps :
    (∀ (envs : String → EnrichEnv) (args : QueryRustDocsArgs),
      args.docs_max_pages = none → args.examples_max_files = none →
      batchResults (query_rustdocs envs args) =
        args.crates.map (fun c => enrich_crate_full (envs c) c 200 20)) ∧
    (∀ (envs : String → EnrichEnv) (args : QueryRustDocsArgs) (dm em : Nat),
      args.docs_max_pages = some dm → args.examples_max_files = some em →
      batchResults (query_rustdocs envs args) =
        args.crates.map (fun c => enrich_crate_full (envs c) c dm em)) := by
  constructor
  · intro envs args h1 h2
    unfold query_rustdocs batchResults
    by_cases h : args.crates.isEmpty
    · rw [if_pos h, List.isEmpty_iff.mp h]
      rfl
    · rw [if_neg h, h1, h2]
      rfl
  · intro envs args dm em h1 h2
    unfold query_rustdocs batchResults
    by_cases h : args.crates.isEmpty
    · rw [if_pos h, List.isEmpty_iff.mp h]
      rfl
    · rw [if_neg h, h1, h2]
      rfl

/-- Witness for `c10_budget_caps`: both cap modes at concrete requests. -/
theorem c10_budget_caps_witness :
    batchResults (query_rustdocs (fun _ => envRegistryTimeout)
        { prompt := none, crates := ["a"], docs_max_pages := none,
          examples_max_files := none }) =
      ["a"].map (fun c => enrich_crate_full envRegistryTimeout c 200 20) ∧
    batchResults (query_rustdocs (fun _ => envRegistryTimeout)
        { prompt := none, crates := ["a"], docs_max_pages := some 7,
          examples_max_files := some 3 }) =
      ["a"].map (fun c => enrich_crate_full envRegistryTimeout c 7 3) :=
  ⟨c10_budget_caps.1 (fun _ => envRegistryTimeout)
      { prompt := none, crates := ["a"], docs_max_pages := none,
        examples_max_files := none } rfl rfl,
    c10_budget_caps.2 (fun _ => envRegistryTimeout)
      { prompt := none, crates := ["a"], docs_max_pages := some 7,
        examples_max_files := some 3 } 7 3 rfl rfl⟩

/-- The reports of the batch are the in-order per-crate enrichments (empty
for an empty request). -/
lemma batchResults_query (envs : String → EnrichEnv) (args : QueryRustDocsArgs) :
    batchResults (query_rustdocs envs args) =
      if args.crates.isEmpty then []
      else
        args.crates.map (fun c => enrich_crate_full (envs c) c
          (args.docs_max_pages.getD 200) (args.examples_max_files.getD 20)) := by
  unfold query_rustdocs
  by_cases h : args.crates.isEmpty
  · rw [if_pos h, if_pos h]
    rfl
  · rw [if_neg h, if_neg h]
    rfl

/-- **C6**: a version-resolution failure is fatal only to that package's own
pipeline: its report carries exactly the package name and one error string,
with every other field empty or absent; no package's environment change
affects any other package's report; and the batch as a whole still succeeds
(a batch response is produced for every non-empty request). -/
theorem c6_resolution_failure_isolated :
    (∀ (env : EnrichEnv) (c : String) (dm em : Nat) (e : String),
      fetch_crates_io_best_version env.registry c = Except.error e →
      enrich_crate_full env c dm em =
        { name := c, latest_version := "", dependency_line := "", description := none,
          repository := none, crates_io_documentation := none, docs_rs_root := none,
          docs_rs_pages_count := 0, docs_anchor_items := [], docs_text_aggregate := none,
          docs_code_snippets := [], github_readme := none, github_examples := [],
          errors := ["Failed to fetch crates.io metadata: " ++ e] }) ∧
    (∀ (envs envs2 : String → EnrichEnv) (args : QueryRustDocsArgs) (c0 : String),
      (∀ c, c ≠ c0 → envs c = envs2 c) →
      ∀ i : Nat, args.crates[i]? ≠ some c0 →
        (batchResults (query_rustdocs envs args))[i]? =
          (batchResults (query_rustdocs envs2 args))[i]?) ∧
    (∀ (envs : String → EnrichEnv) (args : QueryRustDocsArgs),
      args.crates ≠ [] →
      ∃ resp, query_rustdocs envs args = ToolOutput.batch resp) := by
  refine ⟨?_, ?_, ?_⟩
  · intro env c dm em e hfetch
    unfold enrich_crate_full
    rw [hfetch]
  · intro envs envs2 args c0 hoff i hi
    rw [batchResults_query envs args, batchResults_query envs2 args]
    by_cases h : args.crates.isEmpty
    · rw [if_pos h, if_pos h]
    · rw [if_neg h, if_neg h]
      simp only [List.getElem?_map]
      cases hcr : args.crates[i]? with
      | none => rfl
      | some c =>
        have hc : c ≠ c0 := by
          intro hcc
          rw [hcr, hcc] at hi
          exact hi rfl
        simp only [Option.map_some']
        rw [hoff c hc]
  · intro envs args h
    unfold query_rustdocs
    rw [if_neg (by simpa [List.isEmpty_iff] using h)]
    exact ⟨_, rfl⟩

/-- An environment like `envRegistryTimeout` but failing with a transport
error instead of a timeout. -/
def envRegistryNetError : EnrichEnv :=
  { registry :=
      { versions := VersionsOutcome.netError "refused",
        root := RootOutcome.timeout },
    web := webAllOk }

/-- Witness for `c6_resolution_failure_isolated` at concrete inputs: a failing
registry yields the name-plus-one-error report, and two environment
assignments that differ only at `"a"` give identical reports for `"b"`
(index 1 of the batch `["a", "b"]`). -/
theorem c6_resolution_failure_isolated_witness :
    fetch_crates_io_best_version envRegistryTimeout.registry "a" =
        Except.error "timeout fetching crates.io versions for a" ∧
      enrich_crate_full envRegistryTimeout "a" 1 1 =
        { name := "a", latest_version := "", dependency_line := "", description := none,
          repository := none, crates_io_documentation := none, docs_rs_root := none,
          docs_rs_pages_count := 0, docs_anchor_items := [], docs_text_aggregate := none,
          docs_code_snippets := [], github_readme := none, github_examples := [],
          errors := ["Failed to fetch crates.io metadata: " ++
            "timeout fetching crates.io versions for a"] } ∧
      (batchResults (query_rustdocs
          (fun c => if c = "a" then envRegistryNetError else envRegistryTimeout)
          { prompt := none, crates := ["a", "b"], docs_max_pages := none,
            examples_max_files := none }))[1]? =
        (batchResults (query_rustdocs (fun _ => envRegistryTimeout)
          { prompt := none, crates := ["a", "b"], docs_max_pages := none,
            examples_max_files := none }))[1]? := by
  refine ⟨rfl, ?_, ?_⟩
  · exact c6_resolution_failure_isolated.1 envRegistryTimeout "a" 1 1
      "timeout fetching crates.io versions for a" rfl
  · exact c6_resolution_failure_isolated.2.1
      (fun c => if c = "a" then envRegistryNetError else envRegistryTimeout)
      (fun _ => envRegistryTimeout)
      { prompt := none, crates := ["a", "b"], docs_max_pages := none,
        examples_max_files := none } "a"
      (fun c hc => by
        show (if c = "a" then envRegistryNetError else envRegistryTimeout) =
          envRegistryTimeout
        rw [if_neg hc]) 1 (by decide)

/-! ### Code-snippet filtering (C7) and GitHub URL parsing (C8) -/

/-- **C7 (counterexample to the original claim)**: the block `"3 fn a"`
contains the function marker token `"fn "`, so the claim says it is included
and survives cleaning non-empty; but the cleaner drops leading short lines
whose *first token* is numeric even when more text follows on the line, so
this block is cleaned to nothing and excluded from the snippet list. -/
theorem c7_counterexample :
    looks_like_rust (strTrim "3 fn a") = true ∧
      clean_code_snippet (strTrim "3 fn a") = none ∧
      extract_code_blocks_from_html ["3 fn a"] 80 = [] := by
  refine ⟨by decide, by decide, by decide⟩

/-- **C7 (amended)**: a preformatted block whose text contains no
source-language marker token is excluded from the snippet list; one that
contains a marker token is included *exactly when* cleaning (dropping leading
blank lines and leading short — fewer than 8 bytes — lines whose first
whitespace token is purely numeric) leaves it non-empty, and then it appears
as its cleaned form; when cleaning leaves nothing, the block is excluded.  A
marker-bearing block consisting only of such header lines is therefore
excluded (see the counterexample). -/
theorem c7_code_block_filter :
    ∀ (t : String) (M : Nat), 1 ≤ M →
      (looks_like_rust (strTrim t) = false →
        extract_code_blocks_from_html [t] M = []) ∧
      (looks_like_rust (strTrim t) = true →
        extract_code_blocks_from_html [t] M =
          (match clean_code_snippet (strTrim t) with
            | some c => [c]
            | none => [])) := by
  intro t M hM
  have hbudget : ¬ M ≤ ([] : List String).length := by
    simp only [List.length_nil]
    omega
  constructor
  · intro hlr
    unfold extract_code_blocks_from_html
    simp only [List.foldl_cons, List.foldl_nil]
    rw [if_neg hbudget]
    by_cases he : (strTrim t).data = []
    · rw [if_pos he]
    · rw [if_neg he]
      simp [hlr]
  · intro hlr
    have he : (strTrim t).data ≠ [] := by
      intro he
      have hs : strTrim t = "" := by
        have h2 : (⟨(strTrim t).data⟩ : String) = (⟨[]⟩ : String) := by rw [he]
        exact h2
      rw [hs] at hlr
      exact absurd hlr (by decide)
    unfold extract_code_blocks_from_html
    simp only [List.foldl_cons, List.foldl_nil]
    rw [if_neg hbudget, if_neg he]
    cases hclean : clean_code_snippet (strTrim t) with
    | some c => simp [hlr, hclean]
    | none => simp [hlr, hclean]

/-- Witness for `c7_code_block_filter` at concrete blocks: `"fn main()"`
carries a marker and cleans to itself, so it is the single extracted snippet;
the marker-free `"hello world"` is excluded. -/
theorem c7_code_block_filter_witness :
    looks_like_rust (strTrim "fn main()") = true ∧
      clean_code_snippet (strTrim "fn main()") = some "fn main()" ∧
      extract_code_blocks_from_html ["fn main()"] 80 =
        (match clean_code_snippet (strTrim "fn main()") with
          | some c => [c]
          | none => []) ∧
      looks_like_rust (strTrim "hello world") = false ∧
      extract_code_blocks_from_html ["hello world"] 80 = [] :=
  ⟨by decide, by decide,
    (c7_code_block_filter "fn main()" 80 (by decide)).2 (by decide),
    by decide,
    (c7_code_block_filter "hello world" 80 (by decide)).1 (by decide)⟩

/-- The `'/'`-separated segments that `parse_github_owner_repo` splits, made
explicit: require the host marker, strip trailing `".git"` and `'/'`, and
split everything after the marker on `'/'`. -/
def githubTailSegments (repo_url : String) : Option (List String) :=
  if strContains repo_url "github.com/" then
    let s := strTrimEndMatches (strTrimEndMatches repo_url ".git") "/"
    (strAfterFirst? s "github.com/").map (fun tail => strSplitChar tail '/')
  else none

/-- **C8 (counterexample to the original claim)**: parsing succeeds on a URL
whose stripped tail splits into four segments, not exactly two — the code
accepts any split of at least two segments and takes the first two. -/
theorem c8_counterexample :
    parse_github_owner_repo "https://github.com/octo/repo/tree/main" =
        some ("octo", "repo") ∧
      githubTailSegments "https://github.com/octo/repo/tree/main" =
        some ["octo", "repo", "tree", "main"] ∧
      (["octo", "repo", "tree", "main"] : List String).length ≠ 2 := by
  refine ⟨by decide, by decide, by decide⟩

/-- **C8 (amended)**: owner/repo parsing succeeds exactly when, after locating
the host marker and stripping the trailing archive suffix and trailing
slashes, the remaining path splits into *at least* two segments, the first
two being owner and repo; and for every resolved URL the parser does not
recognize, the repository enrichment is skipped entirely for that package:
no README, no examples, and no error recorded (the report's error list is
exactly the crawl stage's). -/
theorem c8_github_parse :
    (∀ (url owner repo : String),
      parse_github_owner_repo url = some (owner, repo) ↔
        ∃ segs, githubTailSegments url = some segs ∧ 2 ≤ segs.length ∧
          segs[0]? = some owner ∧ segs[1]? = some repo) ∧
    (∀ (env : EnrichEnv) (c : String) (dm em : Nat) (v : String)
        (d : Option String) (ru : String),
      fetch_crates_io_best_version env.registry c = Except.ok (v, d, some ru) →
      parse_github_owner_repo ru = none →
      (enrich_crate_full env c dm em).github_readme = none ∧
        (enrich_crate_full env c dm em).github_examples = [] ∧
        (enrich_crate_full env c dm em).errors =
          (match (crawl_docs_rs_collect env.web c v dm).1 with
            | some _ => []
            | none => ["Failed to fetch docs.rs pages for " ++ c ++ " " ++ v])) := by
  constructor
  · intro url owner repo
    simp only [parse_github_owner_repo, githubTailSegments]
    by_cases hcon : strContains url "github.com/" = true
    · rw [if_pos hcon, if_pos hcon]
      cases hafter : strAfterFirst?
          (strTrimEndMatches (strTrimEndMatches url ".git") "/") "github.com/" with
      | none => simp
      | some tail =>
        simp only [Option.map_some', Option.some.injEq]
        cases hsplit : strSplitChar tail '/' with
        | nil => simp
        | cons a rest =>
          cases rest with
          | nil => simp
          | cons b rest2 =>
            simp only [Option.some.injEq, Prod.mk.injEq]
            constructor
            · rintro ⟨rfl, rfl⟩
              refine ⟨a :: b :: rest2, rfl, ?_, by simp, by simp⟩
              simp only [List.length_cons]
              omega
            · rintro ⟨segs, hseg, hlen, h0, h1⟩
              rw [← hseg] at h0 h1
              simp only [List.getElem?_cons_zero, List.getElem?_cons_succ,
                Option.some.injEq] at h0 h1
              exact ⟨h0, h1⟩
    · rw [if_neg hcon, if_neg hcon]
      simp
  · intro env c dm em v d ru hfetch hparse
    have hgh : githubStage env.web (some ru) em = (none, [], []) := by
      simp only [githubStage]
      rw [hparse]
    unfold enrich_crate_full
    simp only [hfetch]
    simp only [hgh]
    refine ⟨trivial, trivial, ?_⟩
    cases hcr : (crawl_docs_rs_collect env.web c v dm).1 with
    | some agg => simp [hcr]
    | none => simp [hcr]

/-- A registry response resolving to version `"1.0.0"` with a repository URL
that is not a recognizable GitHub repository. -/
def envNonGithubRepo : EnrichEnv :=
  { registry :=
      { versions := VersionsOutcome.json
          (some [⟨some "1.0.0", some false, some "https://example.com/x", none⟩]),
        root := RootOutcome.timeout },
    web := webAllOk }

/-- Witness for `c8_github_parse`: parsing `"https://github.com/o/r"`
recognizes exactly the two segments, and a pipeline whose resolved
repository URL is not recognized skips the GitHub stage with no error. -/
theorem c8_github_parse_witness :
    parse_github_owner_repo "https://github.com/o/r" = some ("o", "r") ∧
      fetch_crates_io_best_version envNonGithubRepo.registry "demo" =
        Except.ok ("1.0.0", none, some "https://example.com/x") ∧
      parse_github_owner_repo "https://example.com/x" = none ∧
      (enrich_crate_full envNonGithubRepo "demo" 1 0).github_readme = none ∧
      (enrich_crate_full envNonGithubRepo "demo" 1 0).github_examples = [] ∧
      (enrich_crate_full envNonGithubRepo "demo" 1 0).errors =
        (match (crawl_docs_rs_collect envNonGithubRepo.web "demo" "1.0.0" 1).1 with
          | some _ => []
          | none => ["Failed to fetch docs.rs pages for " ++ "demo" ++ " " ++ "1.0.0"]) := by
  have h2 := c8_github_parse.2 envNonGithubRepo "demo" 1 0 "1.0.0" none
    "https://example.com/x" rfl (by decide)
  exact ⟨(c8_github_parse.1 "https://github.com/o/r" "o" "r").mpr
      ⟨["o", "r"], by decide, by decide, rfl, rfl⟩,
    rfl, by decide, h2.1, h2.2.1, h2.2.2⟩

end QueryRustdocs
